import Mathlib

/-!
Verification development for the PesaDB embedded RDBMS core
(`src/core/Table.ts`, `src/core/BTreeIndex.ts`, `src/core/Parser.ts`).

The TypeScript source is shallowly embedded as follows.

* JS primitive values (strings, numbers, booleans, `null`) become the
  inductive `Value`; numbers are modelled as integers (`Int`), which is
  faithful for the ordering and equality reasoning the specification
  talks about.
* A row object is modelled by its identity: the table keeps a `heap`
  assigning row contents (`RowData`, an association list) to numeric row
  ids.  Hash-index buckets and B-tree row lists store row ids, exactly
  as the source stores object references.
* The B-tree's `values` arrays (`Row[][]`) are mutable JS arrays that can
  be shared between key slots (this sharing is observable: `insertNonFull`
  shifts array references and then pushes into a slot).  They are
  therefore modelled as `cells`: a heap from cell ids to row-id lists,
  with tree nodes storing cell ids.
* Methods that throw become functions returning the mutated-so-far state
  together with `Option String` / `Except String` errors, mirroring the
  exact point in the control flow where the exception is raised.
-/

/-- JS primitive value appearing in rows: string, number, boolean or null.
Numbers are modelled as integers. -/
inductive Value where
  | str (s : String)
  | num (n : Int)
  | bool (b : Bool)
  | null
deriving DecidableEq, Repr

/-- Column type names from `Table.ts` (`'string' | 'number' | 'boolean'`). -/
inductive DataType where
  | string
  | number
  | boolean
deriving DecidableEq, Repr

/-- `typeof row[col] !== col.type` check from `Table.insert`. -/
def Value.hasType : Value → DataType → Bool
  | .str _, .string => true
  | .num _, .number => true
  | .bool _, .boolean => true
  | _, _ => false

/-- Display used by JS template-string interpolation in error messages. -/
def Value.disp : Value → String
  | .str s => s
  | .num n => toString n
  | .bool true => "true"
  | .bool false => "false"
  | .null => "null"

/-- Column definition from `Table.ts`. -/
structure Column where
  name : String
  type : DataType
  isPrimaryKey : Bool
  isUnique : Bool
  isNullable : Bool
deriving DecidableEq, Repr

/-- Row contents: a finite mapping from field name to value, as an
association list in JS-object insertion order.  A missing key models the
JS `undefined`. -/
abbrev RowData := List (String × Value)

/-- Field access `row[k]`; `none` models `undefined`. -/
def rowGet (r : RowData) (k : String) : Option Value :=
  List.lookup k r

/-- JS `map.set(k, x)` / `obj[k] = x`: overwrite the existing entry in
place, otherwise append a new entry at the end (JS `Map`s and objects
iterate in insertion order). -/
def assocSet {α β : Type} [BEq α] [DecidableEq α] (m : List (α × β)) (k : α) (x : β) : List (α × β) :=
  if (m.map Prod.fst).contains k then
    m.map (fun p => if p.1 = k then (k, x) else p)
  else
    m ++ [(k, x)]

/-- JS assignment `row[k] = v`. -/
def rowSet (r : RowData) (k : String) (v : Value) : RowData :=
  assocSet r k v

/-! ## B-tree index (`BTreeIndex.ts`)

`BTreeNode` keeps `keys` and `values` in lockstep (every source operation
splices them at identical indices), so they are fused into `entries`:
pairs of a key and the *cell id* of the key's row-list array. -/

/-- B-tree node: `isLeaf`, the fused `keys`/`values` arrays as `entries`
(key, cell id), and the `children` array. -/
inductive BTreeNode where
  | mk (isLeaf : Bool) (entries : List (Int × Nat)) (children : List BTreeNode)

def BTreeNode.isLeaf : BTreeNode → Bool
  | .mk l _ _ => l

def BTreeNode.entries : BTreeNode → List (Int × Nat)
  | .mk _ es _ => es

def BTreeNode.children : BTreeNode → List BTreeNode
  | .mk _ _ cs => cs

/-- Structural measure: node count plus entry count, used for termination
of the traversals below. -/
def BTreeNode.nsize : BTreeNode → Nat
  | .mk _ es cs => 1 + es.length + (cs.attach.map (fun c => BTreeNode.nsize c.1)).sum
termination_by n => sizeOf n
decreasing_by
  simp_wf
  have := List.sizeOf_lt_of_mem c.2
  omega

/-- Heap of row-list arrays: cell id to list of row ids.  JS arrays are
shared mutable objects; sharing a cell id models sharing the array. -/
abbrev Cells := List (Nat × List Nat)

/-- Contents of a cell (empty for a dangling id). -/
def cellGet (cells : Cells) (c : Nat) : List Nat :=
  (List.lookup c cells).getD []

/-- In-place overwrite of a cell's contents. -/
def cellSet (cells : Cells) (c : Nat) (l : List Nat) : Cells :=
  cells.map (fun p => if p.1 = c then (c, l) else p)

/-- JS `array.push(rid)` on the cell `c`. -/
def cellPush (cells : Cells) (c : Nat) (rid : Nat) : Cells :=
  cellSet cells c (cellGet cells c ++ [rid])

/-- Position computed by the scan `while (i >= 0 && key < keys[i]) i--`
followed by `i++`: the length of the list minus the maximal suffix of
entries whose key is strictly greater than `k`.  Both the leaf insert and
the child selection of `insertNonFull` use this scan. -/
def leafPos (es : List (Int × Nat)) (k : Int) : Nat :=
  es.length - (es.reverse.takeWhile (fun e => decide (k < e.1))).length

/-- `BTreeIndex.splitChild(parent, index)`: splits the full child at
`index`, moving its median entry up into `parent`.  The `none` fallbacks
are unreachable for the calls the source makes (the child exists and
holds `2*order - 1` entries; JS would crash otherwise). -/
def BTreeNode.splitChild (order : Nat) (parent : BTreeNode) (index : Nat) : BTreeNode :=
  match parent with
  | .mk pl pes pcs =>
    match pcs[index]? with
    | none => .mk pl pes pcs
    | some full =>
      let mid := order - 1
      match full.entries[mid]? with
      | none => .mk pl pes pcs
      | some med =>
        let kept : BTreeNode :=
          .mk full.isLeaf (full.entries.take mid)
            (if full.isLeaf then full.children else full.children.take (mid + 1))
        let newChild : BTreeNode :=
          .mk full.isLeaf (full.entries.drop (mid + 1))
            (if full.isLeaf then [] else full.children.drop (mid + 1))
        .mk pl (pes.insertIdx index med) ((pcs.set index kept).insertIdx (index + 1) newChild)

theorem BTreeNode.nsize_pos (n : BTreeNode) : 1 ≤ n.nsize := by
  cases n with
  | mk l es cs => simp [BTreeNode.nsize]; omega

theorem BTreeNode.nsize_lt_of_mem {c : BTreeNode} {l : Bool} {es : List (Int × Nat)}
    {cs : List BTreeNode} (h : c ∈ cs) : c.nsize < (BTreeNode.mk l es cs).nsize := by
  have hmem : c.nsize ∈ (cs.attach.map (fun x => BTreeNode.nsize x.1)) := by
    exact List.mem_map.2 ⟨⟨c, h⟩, List.mem_attach _ _, rfl⟩
  have hle : c.nsize ≤ (cs.attach.map (fun x => BTreeNode.nsize x.1)).sum :=
    List.single_le_sum (fun _ _ => Nat.zero_le _) _ hmem
  simp only [BTreeNode.nsize]
  omega

theorem BTreeNode.nsize_le_of_sublist {cs cs' : List BTreeNode} (h : cs'.Sublist cs) :
    (cs'.attach.map (fun x => BTreeNode.nsize x.1)).sum
      ≤ (cs.attach.map (fun x => BTreeNode.nsize x.1)).sum := by
  rw [List.attach_map_coe, List.attach_map_coe]
  exact List.Sublist.sum_le_sum (h.map BTreeNode.nsize) (by simp)

/-- Sum of node sizes of a child list. -/
def nsizeList (cs : List BTreeNode) : Nat := (cs.map BTreeNode.nsize).sum

theorem BTreeNode.nsize_mk (l : Bool) (es : List (Int × Nat)) (cs : List BTreeNode) :
    (BTreeNode.mk l es cs).nsize = 1 + es.length + nsizeList cs := by
  rw [BTreeNode.nsize, List.attach_map_coe]
  rfl

theorem nsizeList_le_of_sublist {cs cs' : List BTreeNode} (h : cs'.Sublist cs) :
    nsizeList cs' ≤ nsizeList cs :=
  List.Sublist.sum_le_sum (h.map BTreeNode.nsize) (by simp)

theorem BTreeNode.nsize_le_of_mem {c : BTreeNode} {cs : List BTreeNode} (h : c ∈ cs) :
    c.nsize ≤ nsizeList cs :=
  List.single_le_sum (fun _ _ => Nat.zero_le _) _ (List.mem_map.2 ⟨c, h, rfl⟩)


theorem BTreeNode.nsize_piece_le {fl : Bool} {fes : List (Int × Nat)}
    {fcs : List BTreeNode} {es2 : List (Int × Nat)} {cs2 : List BTreeNode}
    (hes : es2.length ≤ fes.length) (hcs : cs2.Sublist fcs) :
    (BTreeNode.mk fl es2 cs2).nsize ≤ (BTreeNode.mk fl fes fcs).nsize := by
  rw [BTreeNode.nsize_mk, BTreeNode.nsize_mk]
  have := nsizeList_le_of_sublist hcs
  omega

theorem BTreeNode.nsize_splitChild_lt {order : Nat} {n c : BTreeNode} {p : Nat}
    (h : c ∈ (BTreeNode.splitChild order n p).children) : c.nsize < n.nsize := by
  cases n with
  | mk l es cs =>
    unfold BTreeNode.splitChild at h
    cases hfull : cs[p]? with
    | none => simp only [hfull, BTreeNode.children] at h; exact BTreeNode.nsize_lt_of_mem h
    | some full =>
      cases hmed : full.entries[(order - 1)]? with
      | none => simp only [hfull, hmed, BTreeNode.children] at h; exact BTreeNode.nsize_lt_of_mem h
      | some med =>
        simp only [hfull, hmed, BTreeNode.children] at h
        have hplen : p < cs.length := (List.getElem?_eq_some_iff.1 hfull).1
        have hfullmem : full ∈ cs := List.getElem?_mem hfull
        have hfulllt : full.nsize < (BTreeNode.mk l es cs).nsize :=
          BTreeNode.nsize_lt_of_mem hfullmem
        have hsetlen : p + 1 ≤ (cs.set p (BTreeNode.mk full.isLeaf (full.entries.take (order - 1))
            (if full.isLeaf = true then full.children
             else full.children.take (order - 1 + 1)))).length := by
          simp only [List.length_set]; omega
        rcases (List.mem_insertIdx hsetlen).1 h with hc | hc
        · subst hc
          have hle : ∀ fl fes fcs, full = BTreeNode.mk fl fes fcs →
              (BTreeNode.mk full.isLeaf (full.entries.drop (order - 1 + 1))
                (if full.isLeaf = true then [] else full.children.drop (order - 1 + 1))).nsize
                ≤ full.nsize := by
            intro fl fes fcs hf
            subst hf
            apply BTreeNode.nsize_piece_le
            · simp only [BTreeNode.entries, List.length_drop]; omega
            · simp only [BTreeNode.isLeaf, BTreeNode.children]
              split
              · exact List.nil_sublist _
              · exact List.drop_sublist _ _
          cases full with
          | mk fl fes fcs => exact lt_of_le_of_lt (hle fl fes fcs rfl) hfulllt
        · rcases List.mem_or_eq_of_mem_set hc with hc2 | hc2
          · exact BTreeNode.nsize_lt_of_mem hc2
          · subst hc2
            have hle : ∀ fl fes fcs, full = BTreeNode.mk fl fes fcs →
                (BTreeNode.mk full.isLeaf (full.entries.take (order - 1))
                  (if full.isLeaf = true then full.children
                   else full.children.take (order - 1 + 1))).nsize ≤ full.nsize := by
              intro fl fes fcs hf
              subst hf
              apply BTreeNode.nsize_piece_le
              · simp only [BTreeNode.entries, List.length_take]; omega
              · simp only [BTreeNode.isLeaf, BTreeNode.children]
                split
                · exact List.Sublist.refl _
                · exact List.take_sublist _ _
            cases full with
            | mk fl fes fcs => exact lt_of_le_of_lt (hle fl fes fcs rfl) hfulllt

/-- `BTreeIndex.insertNonFull(node, key, row)`: inserts into a node that
is not full, splitting any full child met on the way down.  The cell heap
and the fresh-cell counter are threaded through; one fresh (possibly
immediately orphaned) cell is allocated at the leaf, mirroring the
unconditional `node.values.push([])`.  In the leaf case the row id is
pushed into the cell sitting in the slot at the insert position: when the
insert position is interior, that slot still holds the *neighbouring
entry's* cell after the shift loop (the source's `node.values[i+1]` keeps
referencing the next key's array, and the `if (!node.values[i+1])` guard
never fires because the slot always holds an array).  The `none`
fallbacks are unreachable for the trees the source builds (JS would
crash there). -/
def BTreeNode.insertNonFull (order : Nat) (k : Int) (rid : Nat) :
    BTreeNode → Cells → Nat → BTreeNode × Cells × Nat
  | .mk isLeaf es cs, cells, nc =>
    if isLeaf then
      let cells0 := cells ++ [(nc, [])]
      let p := leafPos es k
      if p = es.length then
        (.mk isLeaf (es ++ [(k, nc)]) cs, cellPush cells0 nc rid, nc + 1)
      else
        match es[p]? with
        | some e => (.mk isLeaf (es.insertIdx p (k, e.2)) cs, cellPush cells0 e.2 rid, nc + 1)
        | none => (.mk isLeaf es cs, cells0, nc + 1)
    else
      let p := leafPos es k
      match hc : cs[p]? with
      | none => (.mk isLeaf es cs, cells, nc)
      | some child =>
        if 2 * order - 1 ≤ child.entries.length then
          let n1 := BTreeNode.splitChild order (.mk isLeaf es cs) p
          let p1 := match n1.entries[p]? with
            | some e => if e.1 < k then p + 1 else p
            | none => p
          match hc1 : n1.children[p1]? with
          | none => (n1, cells, nc)
          | some child1 =>
            let r := BTreeNode.insertNonFull order k rid child1 cells nc
            (.mk n1.isLeaf n1.entries (n1.children.set p1 r.1), r.2.1, r.2.2)
        else
          let r := BTreeNode.insertNonFull order k rid child cells nc
          (.mk isLeaf es (cs.set p r.1), r.2.1, r.2.2)
termination_by n => n.nsize
decreasing_by
  · exact BTreeNode.nsize_splitChild_lt (List.getElem?_mem hc1)
  · exact BTreeNode.nsize_lt_of_mem (List.getElem?_mem hc)

mutual
/-- `BTreeIndex.searchNode(node, key)`, returning the *cell id* of the
matched key's row-list array (the source returns the array itself; the
cell id is its identity, which `delete` then mutates in place). -/
def BTreeNode.searchCell (k : Int) : BTreeNode → Option Nat
  | .mk isLeaf es cs => BTreeNode.searchGo k isLeaf es cs
termination_by n => (n.nsize, 0)
decreasing_by
  rw [BTreeNode.nsize_mk]
  exact Prod.Lex.left _ _ (by omega)

/-- Loop of `searchNode`: advance `i` while `key > keys[i]` (each step
also consuming one child), then either match the key, stop at a leaf, or
descend into the child at the final position. -/
def BTreeNode.searchGo (k : Int) (isLeaf : Bool) :
    List (Int × Nat) → List BTreeNode → Option Nat
  | [], cs =>
    if isLeaf then none
    else match cs with
      | c :: _ => BTreeNode.searchCell k c
      | [] => none
  | (k0, c0) :: es, cs =>
    if k0 < k then BTreeNode.searchGo k isLeaf es cs.tail
    else if k = k0 then some c0
    else if isLeaf then none
    else match cs with
      | c :: _ => BTreeNode.searchCell k c
      | [] => none
termination_by es cs => (nsizeList cs + es.length, 1)
decreasing_by
  · rename_i rest
    have h : c.nsize ≤ nsizeList (c :: rest) := BTreeNode.nsize_le_of_mem (by simp)
    rcases Nat.lt_or_ge c.nsize (nsizeList (c :: rest) + List.length ([] : List (Int × Nat)))
      with h1 | h1
    · exact Prod.Lex.left _ _ h1
    · have h2 : c.nsize = nsizeList (c :: rest) + List.length ([] : List (Int × Nat)) := by
        simp only [List.length_nil] at h1 ⊢
        omega
      rw [h2]
      exact Prod.Lex.right _ (by omega)
  · have h : nsizeList cs.tail ≤ nsizeList cs := nsizeList_le_of_sublist (List.tail_sublist cs)
    exact Prod.Lex.left _ _ (by simp only [List.length_cons]; omega)
  · rename_i rest
    have h : c.nsize ≤ nsizeList (c :: rest) := BTreeNode.nsize_le_of_mem (by simp)
    exact Prod.Lex.left _ _ (by simp only [List.length_cons]; omega)
end

mutual
/-- `BTreeIndex.rangeSearch(node, minKey, maxKey, results)`: in-order
collection of the row lists of all keys in `[lo, hi]`, with the early
`return` once a key above `hi` is met (which also skips the final
child). -/
def BTreeNode.rangeSearch (cells : Cells) (lo hi : Int) : BTreeNode → List Nat
  | .mk isLeaf es cs => BTreeNode.rangeGo cells lo hi isLeaf es cs
termination_by n => (n.nsize, 0)
decreasing_by
  rw [BTreeNode.nsize_mk]
  exact Prod.Lex.left _ _ (by omega)

/-- Loop of `rangeSearch` over the entries, consuming one child per
entry; the trailing clause visits the final child. -/
def BTreeNode.rangeGo (cells : Cells) (lo hi : Int) (isLeaf : Bool) :
    List (Int × Nat) → List BTreeNode → List Nat
  | [], cs =>
    if isLeaf then []
    else match cs with
      | c :: _ => BTreeNode.rangeSearch cells lo hi c
      | [] => []
  | (k0, c0) :: es, cs =>
    let childPart : List Nat :=
      if isLeaf then []
      else match cs with
        | c :: _ => BTreeNode.rangeSearch cells lo hi c
        | [] => []
    let mine : List Nat := if lo ≤ k0 ∧ k0 ≤ hi then cellGet cells c0 else []
    if hi < k0 then childPart ++ mine
    else childPart ++ mine ++ BTreeNode.rangeGo cells lo hi isLeaf es cs.tail
termination_by es cs => (nsizeList cs + es.length, 1)
decreasing_by
  · rename_i rest
    have h : c.nsize ≤ nsizeList (c :: rest) := BTreeNode.nsize_le_of_mem (by simp)
    rcases Nat.lt_or_ge c.nsize (nsizeList (c :: rest) + List.length ([] : List (Int × Nat)))
      with h1 | h1
    · exact Prod.Lex.left _ _ h1
    · have h2 : c.nsize = nsizeList (c :: rest) + List.length ([] : List (Int × Nat)) := by
        simp only [List.length_nil] at h1 ⊢
        omega
      rw [h2]
      exact Prod.Lex.right _ (by omega)
  · rename_i rest
    have h : c.nsize ≤ nsizeList (c :: rest) := BTreeNode.nsize_le_of_mem (by simp)
    exact Prod.Lex.left _ _ (by simp only [List.length_cons]; omega)
  · have h : nsizeList cs.tail ≤ nsizeList cs := nsizeList_le_of_sublist (List.tail_sublist cs)
    exact Prod.Lex.left _ _ (by simp only [List.length_cons]; omega)
end

mutual
/-- Keys met by `BTreeIndex.inOrderTraversal`, in visit order.  The
source's traversal pushes each key's row list at the point the key is
visited; collecting the keys themselves at those same points states the
ordering invariant of the tree. -/
def BTreeNode.keysInOrder : BTreeNode → List Int
  | .mk isLeaf es cs => BTreeNode.keysGo isLeaf es cs
termination_by n => (n.nsize, 0)
decreasing_by
  rw [BTreeNode.nsize_mk]
  exact Prod.Lex.left _ _ (by omega)

/-- Loop of `inOrderTraversal`: visit the child before each entry, then
the entry, then (guarded by `children.length > keys.length` in the
source, i.e. a child remains) the final child. -/
def BTreeNode.keysGo (isLeaf : Bool) : List (Int × Nat) → List BTreeNode → List Int
  | [], cs =>
    if isLeaf then []
    else match cs with
      | c :: _ => BTreeNode.keysInOrder c
      | [] => []
  | (k0, _) :: es, cs =>
    (if isLeaf then []
     else match cs with
       | c :: _ => BTreeNode.keysInOrder c
       | [] => []) ++ k0 :: BTreeNode.keysGo isLeaf es cs.tail
termination_by es cs => (nsizeList cs + es.length, 1)
decreasing_by
  · rename_i rest
    have h : c.nsize ≤ nsizeList (c :: rest) := BTreeNode.nsize_le_of_mem (by simp)
    rcases Nat.lt_or_ge c.nsize (nsizeList (c :: rest) + List.length ([] : List (Int × Nat)))
      with h1 | h1
    · exact Prod.Lex.left _ _ h1
    · have h2 : c.nsize = nsizeList (c :: rest) + List.length ([] : List (Int × Nat)) := by
        simp only [List.length_nil] at h1 ⊢
        omega
      rw [h2]
      exact Prod.Lex.right _ (by omega)
  · rename_i rest
    have h : c.nsize ≤ nsizeList (c :: rest) := BTreeNode.nsize_le_of_mem (by simp)
    exact Prod.Lex.left _ _ (by simp only [List.length_cons]; omega)
  · have h : nsizeList cs.tail ≤ nsizeList cs := nsizeList_le_of_sublist (List.tail_sublist cs)
    exact Prod.Lex.left _ _ (by simp only [List.length_cons]; omega)
end

/-- The B-tree index object (`BTreeIndex` class): root node, the heap of
row-list arrays, the fresh-cell counter, and the tree order (the source's
constructor default is `order = 5`; `Table` always uses it). -/
structure BTreeIndex where
  columnName : String
  order : Nat
  root : BTreeNode
  cells : Cells
  nextCell : Nat

/-- `new BTreeIndex(columnName, order)`; the root starts as an empty
leaf. -/
def BTreeIndex.new (columnName : String) (order : Nat) : BTreeIndex :=
  ⟨columnName, order, .mk true [] [], [], 0⟩

/-- `BTreeIndex.insert(key, row)`: split a full root first, then insert
into the (now non-full) root.  The `key === null || undefined` early
return cannot fire for integer keys. -/
def BTreeIndex.insert (bt : BTreeIndex) (k : Int) (rid : Nat) : BTreeIndex :=
  let root0 := if 2 * bt.order - 1 ≤ bt.root.entries.length then
      BTreeNode.splitChild bt.order (.mk false [] [bt.root]) 0
    else bt.root
  let r := BTreeNode.insertNonFull bt.order k rid root0 bt.cells bt.nextCell
  { bt with root := r.1, cells := r.2.1, nextCell := r.2.2 }

/-- `BTreeIndex.search(key)`: row list of the first matching key, else
empty. -/
def BTreeIndex.search (bt : BTreeIndex) (k : Int) : List Nat :=
  match BTreeNode.searchCell k bt.root with
  | some c => cellGet bt.cells c
  | none => []

/-- `BTreeIndex.delete(key, row)`: splice the row out of the row-list
array returned by `searchNode` (an in-place mutation of that array, i.e.
of the cell). -/
def BTreeIndex.delete (bt : BTreeIndex) (k : Int) (rid : Nat) : BTreeIndex :=
  match BTreeNode.searchCell k bt.root with
  | some c => { bt with cells := cellSet bt.cells c ((cellGet bt.cells c).erase rid) }
  | none => bt

/-- `BTreeIndex.range(minKey, maxKey)`: inclusive range query. -/
def BTreeIndex.range (bt : BTreeIndex) (lo hi : Int) : List Nat :=
  BTreeNode.rangeSearch bt.cells lo hi bt.root

/-! ## Table (`Table.ts`)

A table keeps a `heap` of row objects (id to contents), the `rows` array
of row references, hash `indices` for primary-key/unique columns, and
`btreeIndices` for numeric columns.  Hash indices are JS `Map`s from a
value to an array of row references. -/

/-- One hash index: value to bucket of row ids, in insertion order. -/
abbrev HashIdx := List (Value × List Nat)

/-- JS `map.get(v)`. -/
def idxGet (idx : HashIdx) (v : Value) : Option (List Nat) :=
  List.lookup v idx

/-- JS `map.set(v, l)` on a hash index. -/
def idxSet (idx : HashIdx) (v : Value) (l : List Nat) : HashIdx :=
  assocSet idx v l

/-- JS `map.delete(v)`. -/
def idxDelete (idx : HashIdx) (v : Value) : HashIdx :=
  idx.filter (fun p => ¬ p.1 = v)

/-- `typeof` result used in the type-mismatch error message. -/
def Value.typeofStr : Value → String
  | .str _ => "string"
  | .num _ => "number"
  | .bool _ => "boolean"
  | .null => "object"

/-- Column type name as written in the schema. -/
def DataType.name : DataType → String
  | .string => "string"
  | .number => "number"
  | .boolean => "boolean"

/-- The table object. -/
structure Table where
  name : String
  columns : List Column
  heap : List (Nat × RowData)
  nextId : Nat
  rows : List Nat
  indices : List (String × HashIdx)
  btreeIndices : List (String × BTreeIndex)
  primaryKeyCol : Option String

/-- Contents of the row object `rid` (empty for a dangling id, which the
source never produces). -/
def Table.rowData (t : Table) (rid : Nat) : RowData :=
  (List.lookup rid t.heap).getD []

/-- `row[c]` for the row object `rid`. -/
def Table.rowVal (t : Table) (rid : Nat) (c : String) : Option Value :=
  rowGet (t.rowData rid) c

/-- In-place mutation of the row object `rid`. -/
def heapSet (h : List (Nat × RowData)) (rid : Nat) (r : RowData) : List (Nat × RowData) :=
  h.map (fun p => if p.1 = rid then (rid, r) else p)

/-- The `Table` constructor: validates the single-primary-key rule and
creates the hash and B-tree indices column by column.  The index-rebuild
loops of `createIndex`/`createBTreeIndex` are vacuous here because the
constructor runs with an empty row store. -/
def Table.create (name : String) (columns : List Column) : Except String Table :=
  go columns ⟨name, columns, [], 0, [], [], [], none⟩
where
  go : List Column → Table → Except String Table
  | [], t => .ok t
  | col :: rest, t => do
    let t ← (if col.isPrimaryKey then
        match t.primaryKeyCol with
        | some _ => .error ("Table " ++ name ++ " can only have one primary key.")
        | none => .ok { t with primaryKeyCol := some col.name }
      else .ok t)
    let t := if col.isPrimaryKey || col.isUnique then
        (if (List.lookup col.name t.indices).isSome then t
         else { t with indices := t.indices ++ [(col.name, [])] })
      else t
    let t := if col.type = DataType.number then
        (if (List.lookup col.name t.btreeIndices).isSome then t
         else { t with btreeIndices := t.btreeIndices ++ [(col.name, BTreeIndex.new col.name 5)] })
      else t
    go rest t

/-- First loop of `Table.insert`: per-column type validation (`row[col]`
present implies matching `typeof`, absent implies the column is
nullable), returning the first error raised. -/
def checkTypes : List Column → RowData → Option String
  | [], _ => none
  | col :: rest, r =>
    match rowGet r col.name with
    | some v =>
      if ¬ v.hasType col.type then
        some ("Invalid type for column '" ++ col.name ++ "'. Expected "
          ++ col.type.name ++ ", got " ++ v.typeofStr)
      else checkTypes rest r
    | none =>
      if ¬ col.isNullable then
        some ("Column '" ++ col.name ++ "' cannot be null")
      else checkTypes rest r

/-- Text of the unique-constraint error for column `c` and value `v`. -/
def uniqueViolationMsg (c : String) (v : Value) : String :=
  "Unique constraint violation on column '" ++ c ++ "' with value '" ++ v.disp ++ "'"

/-- Second loop of `Table.insert`: probe every hash index of a
primary-key/unique column before mutating anything. -/
def uniquePreCheck (columns : List Column) : List (String × HashIdx) → RowData → Option String
  | [], _ => none
  | (c, idx) :: rest, r =>
    match rowGet r c with
    | none => uniquePreCheck columns rest r
    | some v =>
      let uniq := match columns.find? (fun cd => cd.name = c) with
        | some cd => cd.isUnique || cd.isPrimaryKey
        | none => false
      if (!(v == Value.null)) && uniq && (idxGet idx v).isSome then
        some (uniqueViolationMsg c v)
      else uniquePreCheck columns rest r

/-- `Table.addToIndex(colName, row)`: skip null/absent values, create the
bucket if missing, re-check uniqueness, then push the row reference. -/
def addToIndex (columns : List Column) (idx : HashIdx) (c : String) (rid : Nat)
    (r : RowData) : Except String HashIdx :=
  match rowGet r c with
  | none => .ok idx
  | some Value.null => .ok idx
  | some v =>
    let idx0 := if (idxGet idx v).isSome then idx else idxSet idx v []
    let uniq := match columns.find? (fun cd => cd.name = c) with
      | some cd => cd.isUnique || cd.isPrimaryKey
      | none => false
    if uniq && !((idxGet idx0 v).getD [] == []) then
      .error (uniqueViolationMsg c v)
    else
      .ok (idxSet idx0 v ((idxGet idx0 v).getD [] ++ [rid]))

/-- `Table.removeFromIndex(colName, row)`: splice the row reference out
of its bucket and drop the bucket once empty. -/
def removeFromIndex (idx : HashIdx) (c : String) (rid : Nat) (r : RowData) : HashIdx :=
  match rowGet r c with
  | none => idx
  | some Value.null => idx
  | some v =>
    match idxGet idx v with
    | none => idx
    | some bucket =>
      let bucket1 := bucket.erase rid
      if bucket1 = [] then idxDelete idx v else idxSet idx v bucket1

/-- The `for (const [colName] of this.indices) addToIndex(...)` loop of
`Table.insert` and `Table.update`: on the first failing index the already
processed indices keep their update, the failing and the remaining ones
are untouched, and the error propagates. -/
def addToIndices (columns : List Column) :
    List (String × HashIdx) → RowData → Nat → List (String × HashIdx) × Option String
  | [], _, _ => ([], none)
  | (c, idx) :: rest, r, rid =>
    match addToIndex columns idx c rid r with
    | .ok idx1 =>
      let rec0 := addToIndices columns rest r rid
      ((c, idx1) :: rec0.1, rec0.2)
    | .error e => ((c, idx) :: rest, some e)

/-- The B-tree maintenance loop of `Table.insert`: every numeric column's
tree receives the new row reference (non-numeric or absent values cannot
occur here for the trees the class creates, since they exist only for
`number`-typed columns and the row was type-validated). -/
def btreeInsertAll (bts : List (String × BTreeIndex)) (r : RowData) (rid : Nat) :
    List (String × BTreeIndex) :=
  bts.map (fun p =>
    match rowGet r p.1 with
    | some (Value.num k) => (p.1, p.2.insert k rid)
    | _ => p)

/-- `Table.insert(row)`: type validation, uniqueness pre-check, append to
storage, hash-index updates (with the pop-on-error rollback of the row
append), then B-tree updates.  Returns the table as left by the method
together with the raised error, if any. -/
def Table.insert (t : Table) (r : RowData) : Table × Option String :=
  match checkTypes t.columns r with
  | some e => (t, some e)
  | none =>
  match uniquePreCheck t.columns t.indices r with
  | some e => (t, some e)
  | none =>
    let rid := t.nextId
    let t1 : Table := { t with heap := t.heap ++ [(rid, r)], nextId := rid + 1,
                               rows := t.rows ++ [rid] }
    match addToIndices t1.columns t1.indices r rid with
    | (idx1, some e) => ({ t1 with indices := idx1, rows := t1.rows.dropLast }, some e)
    | (idx1, none) =>
      ({ t1 with indices := idx1,
                 btreeIndices := btreeInsertAll t1.btreeIndices r rid }, none)

/-- Candidate-row scan of `Table.select`: walk the predicate fields in
order; an indexed field with no bucket short-circuits the whole select to
empty (`none` here); otherwise keep the smallest bucket seen. -/
def selectCandidates (t : Table) : List (String × Value) → Option (List Nat) →
    Option (Option (List Nat))
  | [], acc => some acc
  | (c, v) :: rest, acc =>
    match List.lookup c t.indices with
    | none => selectCandidates t rest acc
    | some idx =>
      match idxGet idx v with
      | none => none
      | some hits =>
        let acc1 := match acc with
          | none => some hits
          | some cand => if hits.length < cand.length then some hits else some cand
        selectCandidates t rest acc1

/-- `Table.select(where)`: empty predicate returns the row store;
otherwise filter the candidate set (or the whole store) against every
predicate field. -/
def Table.select (t : Table) (w : RowData) : List Nat :=
  if w = [] then t.rows
  else
    match selectCandidates t w none with
    | none => []
    | some cand =>
      (cand.getD t.rows).filter (fun rid =>
        w.all (fun kv => t.rowVal rid kv.1 = some kv.2))

/-- JS `for (key in updates) row[key] = updates[key]`. -/
def applyUpdates (r : RowData) (upd : RowData) : RowData :=
  upd.foldl (fun acc kv => rowSet acc kv.1 kv.2) r

/-- Per-row body of `Table.update`: remove the row from every hash index
(pre-update values), mutate the row object in place, re-add it to every
hash index (post-update values; a uniqueness failure here aborts the
whole statement mid-way).  Range indices are not touched. -/
def Table.updateRows (upd : RowData) : List Nat → Table → Table × Option String
  | [], t => (t, none)
  | rid :: rest, t =>
    let r := t.rowData rid
    let t1 : Table :=
      { t with indices := t.indices.map (fun p => (p.1, removeFromIndex p.2 p.1 rid r)) }
    let r1 := applyUpdates r upd
    let t2 : Table := { t1 with heap := heapSet t1.heap rid r1 }
    match addToIndices t2.columns t2.indices r1 rid with
    | (idx1, some e) => ({ t2 with indices := idx1 }, some e)
    | (idx1, none) => Table.updateRows upd rest { t2 with indices := idx1 }

/-- `Table.update(where, updates)`: select the affected rows, process
them one by one, and return the affected count (or the error raised
mid-batch, with the table left as it then was). -/
def Table.update (t : Table) (w : RowData) (upd : RowData) : Table × Except String Nat :=
  let ids := t.select w
  match Table.updateRows upd ids t with
  | (t1, some e) => (t1, .error e)
  | (t1, none) => (t1, .ok ids.length)

/-- Per-row body of `Table.delete`: remove from every hash index, remove
from every B-tree index (pre-delete values), then splice the row out of
the row store. -/
def Table.deleteRows : List Nat → Table → Table
  | [], t => t
  | rid :: rest, t =>
    let r := t.rowData rid
    let t1 : Table :=
      { t with indices := t.indices.map (fun p => (p.1, removeFromIndex p.2 p.1 rid r)) }
    let t2 : Table := { t1 with btreeIndices := t1.btreeIndices.map (fun p =>
        match rowGet r p.1 with
        | some (Value.num k) => (p.1, p.2.delete k rid)
        | _ => p) }
    let t3 : Table := { t2 with rows := t2.rows.erase rid }
    Table.deleteRows rest t3

/-- `Table.delete(where)`: select the affected rows, remove each from
every index and from storage, and return the affected count. -/
def Table.delete (t : Table) (w : RowData) : Table × Nat :=
  let ids := t.select w
  (Table.deleteRows ids t, ids.length)

/-- `Table.selectBetween(column, min, max)`: delegate to the column's
B-tree index when it exists, otherwise linear-scan with the inclusive
comparison (the claims concern numeric bounds on numeric columns, so the
scan compares number values; JS comparisons against other value shapes
cannot arise through the class API). -/
def Table.selectBetween (t : Table) (column : String) (lo hi : Int) : List Nat :=
  match List.lookup column t.btreeIndices with
  | none => t.rows.filter (fun rid =>
      match t.rowVal rid column with
      | some (Value.num n) => decide (lo ≤ n ∧ n ≤ hi)
      | _ => false)
  | some bt => bt.range lo hi

/-! ## Statement processor (`Parser.ts`)

The statement handlers are embedded at the level of the regex capture
groups: `execute` normalizes whitespace and dispatches on the leading
keyword, and each handler's pattern either fails (the `none`/`.error`
branches below, raised before any table is touched) or yields the
captured pieces, which the handler body then processes.  UPDATE/DELETE
statements are modelled as their whitespace-normalized word lists, which
is faithful because `execute` collapses all whitespace runs to single
spaces before matching. -/

/-- The table registry (`Database.tables`); `save` is an I/O no-op for
the core semantics. -/
abbrev Db := List (String × Table)

/-- `db.tables.get(name)`. -/
def dbGet (db : Db) (n : String) : Option Table :=
  List.lookup n db

/-- `db.tables.set(name, t)`. -/
def dbSet (db : Db) (n : String) (t : Table) : Db :=
  assocSet db n t

/-- One parsed column definition of `handleCreateTable`: the source
splits each comma-separated piece on whitespace, takes `parts[0]` as the
name and `parts[1]` as the type, and looks for `pk`/`primary`/`unique`
anywhere in `parts`; `isNullable` is always `false`.  A missing or
unsupported type throws. -/
def parseColumnDef (parts : List String) : Except String Column :=
  match parts[0]?, parts[1]? with
  | some nm, some ty =>
    let dt? : Option DataType :=
      if ty = "string" then some .string
      else if ty = "number" then some .number
      else if ty = "boolean" then some .boolean
      else none
    match dt? with
    | none => .error ("Unsupported type '" ++ ty ++ "'")
    | some dt =>
      .ok ⟨nm, dt, parts.contains "pk" || parts.contains "primary", parts.contains "unique", false⟩
  | _, _ => .error "Unsupported type 'undefined'"

/-- `colsDef.map(...)` with the JS semantics of throwing at the first
bad definition. -/
def mapColumns : List (List String) → Except String (List Column)
  | [] => .ok []
  | d :: rest => do
    let col ← parseColumnDef d
    let cols ← mapColumns rest
    .ok (col :: cols)

/-- `SQLParser.handleCreateTable`, from the captured table name and the
comma-split, whitespace-split column definitions onward. -/
def SQLParser.handleCreateTable (db : Db) (tableName : String)
    (colsDef : List (List String)) : Db × Except String String :=
  match mapColumns colsDef with
  | .error e => (db, .error e)
  | .ok cols =>
    if (dbGet db tableName).isSome then
      (db, .error ("Table '" ++ tableName ++ "' already exists."))
    else
      match Table.create tableName cols with
      | .error e => (db, .error e)
      | .ok t => (dbSet db tableName t, .ok ("Table '" ++ tableName ++ "' created."))

/-- Row built by `handleInsert` from the column list and the parsed
values: `cols.forEach((col, i) => row[col] = vals[i])`. -/
def mkRow (cols : List String) (vals : List Value) : RowData :=
  (cols.zip vals).foldl (fun r kv => rowSet r kv.1 kv.2) []

/-- `SQLParser.handleInsert`, from the captured pieces onward (the
values already taken through `parseValue`). -/
def SQLParser.handleInsert (db : Db) (tableName : String) (cols : List String)
    (vals : List Value) : Db × Except String String :=
  if cols.length ≠ vals.length then (db, .error "Column/Value count mismatch")
  else
    match dbGet db tableName with
    | none => (db, .error ("Table '" ++ tableName ++ "' not found."))
    | some t =>
      match t.insert (mkRow cols vals) with
      | (t1, some e) => (dbSet db tableName t1, .error e)
      | (t1, none) => (dbSet db tableName t1, .ok ("Inserted 1 row into '" ++ tableName ++ "'."))

/-- `parseValue`: quoted text (quotes stripped), `true`/`false`, then
numbers (integer literals in this embedding), else the raw token. -/
def parseValue (val : String) : Value :=
  if val.startsWith "\"" && val.endsWith "\"" then .str ((val.drop 1).dropRight 1)
  else if val.startsWith "'" && val.endsWith "'" then .str ((val.drop 1).dropRight 1)
  else if val = "true" then .bool true
  else if val = "false" then .bool false
  else
    match val.toInt? with
    | some n => .num n
    | none => .str val

/-- `parseWhere`: single `col = val` equality condition. -/
def parseWhere (clause : String) : Except String RowData :=
  match clause.splitOn "=" with
  | [k, v] => .ok [(k.trim, parseValue v.trim)]
  | _ => .error ("Simple WHERE clause supported only (col = val). Got: " ++ clause)

/-- SET-clause parsing inside `handleUpdate`: split on commas, each part
split on `=` (extra `=` parts are dropped by the destructuring); a part
with no `=` crashes the source with a TypeError inside `parseValue`,
before any table mutation. -/
def parseSetClause (s : String) : Except String RowData :=
  go (s.splitOn ",") []
where
  go : List String → RowData → Except String RowData
  | [], acc => .ok acc
  | part :: rest, acc =>
    match (part.splitOn "=").map String.trim with
    | k :: v :: _ => go rest (rowSet acc k (parseValue v))
    | _ => .error "TypeError: undefined passed to parseValue"

/-- ASCII uppercase of a character, modelling the case-insensitivity
(`/i`) of the statement patterns. -/
def charUpper (c : Char) : Char :=
  if 97 ≤ c.toNat ∧ c.toNat ≤ 122 then Char.ofNat (c.toNat - 32) else c

/-- ASCII uppercase of a word, as its character list. -/
def upperW (s : String) : List Char :=
  s.data.map charUpper

/-- First `WHERE` word (case-insensitive) that still has words after it,
as the lazy `(.*?)\s+WHERE\s+(.*)$` tail of the UPDATE pattern finds it;
returns the words before and after. -/
def splitWhereAux : List String → Option (List String × List String)
  | [] => none
  | w :: rest =>
    if upperW w = ['W', 'H', 'E', 'R', 'E'] && !rest.isEmpty then some ([], rest)
    else
      match splitWhereAux rest with
      | some (a, b) => some (w :: a, b)
      | none => none

/-- Match of `/^UPDATE\s+(\w+)\s+SET\s+(.*?)\s+WHERE\s+(.*)$/i` over the
normalized word list: the captures are the table name, the (nonempty)
SET-clause words and the (nonempty) WHERE-clause words. -/
def matchUpdate (ws : List String) : Option (String × List String × List String) :=
  match ws with
  | u :: nm :: s :: w0 :: rest0 =>
    if upperW u = "UPDATE".data && upperW s = "SET".data then
      match splitWhereAux rest0 with
      | some (a, b) => some (nm, w0 :: a, b)
      | none => none
    else none
  | _ => none

/-- Match of `/^DELETE FROM\s+(\w+)\s+WHERE\s+(.*)$/i` over the
normalized word list. -/
def matchDelete (ws : List String) : Option (String × List String) :=
  match ws with
  | d :: f :: nm :: w :: r0 :: rest =>
    if upperW d = "DELETE".data && upperW f = "FROM".data && upperW w = "WHERE".data then
      some (nm, r0 :: rest)
    else none
  | _ => none

/-- `SQLParser.handleUpdate` on the normalized statement words.  A
pattern that does not match (in particular, any statement with no WHERE
word) raises the syntax error before any table is looked up or
mutated. -/
def SQLParser.handleUpdate (db : Db) (ws : List String) : Db × Except String String :=
  match matchUpdate ws with
  | none => (db, .error "Syntax error in UPDATE. WHERE clause is required for safety.")
  | some (tableName, setWs, whereWs) =>
    match dbGet db tableName with
    | none => (db, .error ("Table '" ++ tableName ++ "' not found."))
    | some t =>
      match parseSetClause (String.intercalate " " setWs) with
      | .error e => (db, .error e)
      | .ok upd =>
        match parseWhere (String.intercalate " " whereWs) with
        | .error e => (db, .error e)
        | .ok w =>
          match t.update w upd with
          | (t1, .error e) => (dbSet db tableName t1, .error e)
          | (t1, .ok n) => (dbSet db tableName t1, .ok ("Updated " ++ toString n ++ " rows."))

/-- `SQLParser.handleDelete` on the normalized statement words. -/
def SQLParser.handleDelete (db : Db) (ws : List String) : Db × Except String String :=
  match matchDelete ws with
  | none => (db, .error "Syntax error in DELETE. WHERE clause is required.")
  | some (tableName, whereWs) =>
    match dbGet db tableName with
    | none => (db, .error ("Table '" ++ tableName ++ "' not found."))
    | some t =>
      match parseWhere (String.intercalate " " whereWs) with
      | .error e => (db, .error e)
      | .ok w =>
        let r := t.delete w
        (dbSet db tableName r.1, .ok ("Deleted " ++ toString r.2 ++ " rows."))

/-! ### Hash join (`SQLParser.handleJoin`)

The join works on the two materialized row lists (`table1.select({})`,
`table2.select({})`); rows are read-only here, so they are represented by
their contents. -/

/-- Hash map of a join's build side: value to build-side rows. -/
abbrev JoinMap := List (Value × List RowData)

/-- JS `map.get(v)`. -/
def jmGet (m : JoinMap) (v : Value) : Option (List RowData) :=
  List.lookup v m

/-- The build loop of `handleJoin`: group the build side's rows by their
join-key value, skipping rows whose key value is `undefined`/`null`. -/
def buildHashMap (rows : List RowData) (key : String) : JoinMap :=
  rows.foldl
    (fun m row =>
      match rowGet row key with
      | none => m
      | some v =>
        if v = Value.null then m
        else assocSet m v ((jmGet m v).getD [] ++ [row])) []

/-- `SQLParser.createJoinedRow`: namespace each side's fields by its
alias; an absent side contributes the single `alias.*` null sentinel. -/
def createJoinedRow (r1 r2 : Option RowData) (a1 a2 : String) : RowData :=
  (match r1 with
   | some r => r.map (fun kv => (a1 ++ "." ++ kv.1, kv.2))
   | none => [(a1 ++ ".*", Value.null)]) ++
  (match r2 with
   | some r => r.map (fun kv => (a2 ++ "." ++ kv.1, kv.2))
   | none => [(a2 ++ ".*", Value.null)])

inductive JoinType where
  | inner
  | left
  | right
deriving DecidableEq, Repr

/-- The build/probe choice of `handleJoin`: the smaller row set (ties to
the first table) becomes the build side, the other the probe side; the
boolean reports whether table 1 was chosen. -/
def pickBuild (rows1 rows2 : List RowData) : List RowData × List RowData × Bool :=
  if rows1.length ≤ rows2.length then (rows1, rows2, true) else (rows2, rows1, false)

/-- Join execution of `handleJoin`, from the materialized row sets
onward: build the hash map over the smaller side, then emit joined rows
according to the join type, exactly following the source's branches
(including the LEFT/RIGHT fallback to a linear scan when the iterated
side is also the build side). -/
def handleJoinRows (jt : JoinType) (rows1 rows2 : List RowData) (k1 k2 a1 a2 : String) :
    List RowData :=
  let pick := pickBuild rows1 rows2
  let smallerRows := pick.1
  let largerRows := pick.2.1
  let isTable1Smaller := pick.2.2
  let hashKey := if isTable1Smaller then k1 else k2
  let lookupKey := if isTable1Smaller then k2 else k1
  let hashMap := buildHashMap smallerRows hashKey
  match jt with
  | .inner =>
    largerRows.flatMap (fun largerRow =>
      match rowGet largerRow lookupKey with
      | none => []
      | some kv =>
        match jmGet hashMap kv with
        | none => []
        | some ms =>
          ms.map (fun smallerRow =>
            if isTable1Smaller then createJoinedRow (some smallerRow) (some largerRow) a1 a2
            else createJoinedRow (some largerRow) (some smallerRow) a1 a2))
  | .left =>
    rows1.flatMap (fun row1 =>
      let pairs : List RowData :=
        match rowGet row1 k1 with
        | some v =>
          match jmGet hashMap v with
          | some ms =>
            if !isTable1Smaller then
              ms.map (fun row2 => createJoinedRow (some row1) (some row2) a1 a2)
            else if isTable1Smaller then
              (rows2.filter (fun row2 => rowGet row1 k1 == rowGet row2 k2)).map
                (fun row2 => createJoinedRow (some row1) (some row2) a1 a2)
            else []
          | none =>
            if isTable1Smaller then
              (rows2.filter (fun row2 => rowGet row1 k1 == rowGet row2 k2)).map
                (fun row2 => createJoinedRow (some row1) (some row2) a1 a2)
            else []
        | none =>
          if isTable1Smaller then
            (rows2.filter (fun row2 => rowGet row1 k1 == rowGet row2 k2)).map
              (fun row2 => createJoinedRow (some row1) (some row2) a1 a2)
          else []
      if pairs.isEmpty then [createJoinedRow (some row1) none a1 a2] else pairs)
  | .right =>
    rows2.flatMap (fun row2 =>
      let pairs : List RowData :=
        match rowGet row2 k2 with
        | some v =>
          match jmGet hashMap v with
          | some ms =>
            if isTable1Smaller then
              ms.map (fun row1 => createJoinedRow (some row1) (some row2) a1 a2)
            else if !isTable1Smaller then
              (rows1.filter (fun row1 => rowGet row1 k1 == rowGet row2 k2)).map
                (fun row1 => createJoinedRow (some row1) (some row2) a1 a2)
            else []
          | none =>
            if !isTable1Smaller then
              (rows1.filter (fun row1 => rowGet row1 k1 == rowGet row2 k2)).map
                (fun row1 => createJoinedRow (some row1) (some row2) a1 a2)
            else []
        | none =>
          if !isTable1Smaller then
            (rows1.filter (fun row1 => rowGet row1 k1 == rowGet row2 k2)).map
              (fun row1 => createJoinedRow (some row1) (some row2) a1 a2)
          else []
      if pairs.isEmpty then [createJoinedRow none (some row2) a1 a2] else pairs)

/-- Modelled from the spec's words, for comparison with `handleJoinRows`:
"INNER join of tables A, B on key equality returns exactly
`{(a,b) | a.key == b.key}`" as a nested-loop join, each matching pair
emitted once, fields namespaced by alias. -/
def specInnerJoin (rows1 rows2 : List RowData) (k1 k2 a1 a2 : String) : List RowData :=
  rows1.flatMap (fun a =>
    (rows2.filter (fun b => rowGet b k2 == rowGet a k1)).map
      (fun b => createJoinedRow (some a) (some b) a1 a2))

/-- Modelled from the spec's words, for comparison with `handleJoinRows`:
"LEFT join returns one row per `a` in A, with a null-padded B side iff no
match exists". -/
def specLeftJoin (rows1 rows2 : List RowData) (k1 k2 a1 a2 : String) : List RowData :=
  rows1.flatMap (fun a =>
    let ms := rows2.filter (fun b => rowGet b k2 == rowGet a k1)
    if ms.isEmpty then [createJoinedRow (some a) none a1 a2]
    else ms.map (fun b => createJoinedRow (some a) (some b) a1 a2))

/-- Decidable consistency check between a table's hash indices and its
row store: every live row's non-null value in an indexed column has a
bucket in that column's index.  This is the invariant `Table.insert`'s
uniqueness pre-check relies on; a failed mid-statement `UPDATE` can break
it. -/
def hashIndexComplete (t : Table) : Bool :=
  t.indices.all (fun ci =>
    t.rows.all (fun rid =>
      match t.rowVal rid ci.1 with
      | some v => (v == Value.null) || (idxGet ci.2 v).isSome
      | none => true))

/-! ## Supporting lemmas -/

theorem lookup_cons {α β : Type} [BEq α] (a : α) (hd : α × β) (tl : List (α × β)) :
    List.lookup a (hd :: tl) = if a == hd.1 then some hd.2 else List.lookup a tl := by
  cases hd with
  | mk k b =>
    show List.lookup a ((k, b) :: tl) = _
    rw [List.lookup]
    cases h : a == k <;> simp [h]

theorem lookup_overwrite_ne {α β : Type} [DecidableEq α] [BEq α] [LawfulBEq α]
    (m : List (α × β)) {k v : α} (x : β) (h : v ≠ k) :
    List.lookup v (m.map fun p => if p.1 = k then (k, x) else p) = List.lookup v m := by
  induction m with
  | nil => rfl
  | cons hd tl ih =>
    rw [List.map_cons, lookup_cons, lookup_cons]
    by_cases hk : hd.1 = k
    · rw [if_pos hk]
      have hv : (v == (k, x).1) = false := beq_eq_false_iff_ne.mpr h
      have hv2 : (v == hd.1) = false := beq_eq_false_iff_ne.mpr (hk ▸ h)
      rw [hv, hv2, ih]
      simp
    · rw [if_neg hk]
      cases hbeq : v == hd.1
      · simp only [Bool.false_eq_true, if_false]
        exact ih
      · simp

theorem lookup_overwrite_self {α β : Type} [DecidableEq α] [BEq α] [LawfulBEq α]
    (m : List (α × β)) {k : α} (x : β) (h : k ∈ m.map Prod.fst) :
    List.lookup k (m.map fun p => if p.1 = k then (k, x) else p) = some x := by
  induction m with
  | nil => simp at h
  | cons hd tl ih =>
    rw [List.map_cons, lookup_cons]
    by_cases hk : hd.1 = k
    · rw [if_pos hk]
      simp
    · rw [if_neg hk]
      have hmem : k ∈ tl.map Prod.fst := by
        simp only [List.map_cons, List.mem_cons] at h
        rcases h with h | h
        · exact absurd h.symm hk
        · exact h
      have hk2 : (k == hd.1) = false := beq_eq_false_iff_ne.mpr (fun hh => hk hh.symm)
      rw [hk2]
      simp only [Bool.false_eq_true, if_false]
      exact ih hmem

theorem lookup_not_contains {α β : Type} [BEq α] [LawfulBEq α]
    (m : List (α × β)) {k : α} (h : (m.map Prod.fst).contains k = false) :
    List.lookup k m = none := by
  induction m with
  | nil => rfl
  | cons hd tl ih =>
    simp only [List.map_cons, List.contains_cons, Bool.or_eq_false_iff] at h
    rw [lookup_cons, h.1]
    simp only [Bool.false_eq_true, if_false]
    exact ih h.2

theorem lookup_append_single {α β : Type} [DecidableEq α] [BEq α] [LawfulBEq α]
    (m : List (α × β)) (k v : α) (x : β) :
    List.lookup v (m ++ [(k, x)]) =
      match List.lookup v m with
      | some b => some b
      | none => if v = k then some x else none := by
  induction m with
  | nil =>
    simp only [List.nil_append, List.lookup]
    by_cases hv : v = k
    · rw [beq_iff_eq.mpr hv]
      simp [hv]
    · rw [beq_eq_false_iff_ne.mpr hv]
      simp [hv]
  | cons hd tl ih =>
    rw [List.cons_append, lookup_cons, lookup_cons]
    cases hbeq : v == hd.1
    · simp only [Bool.false_eq_true, if_false]
      exact ih
    · simp

theorem lookup_assocSet {α β : Type} [BEq α] [DecidableEq α] [LawfulBEq α]
    (m : List (α × β)) (k : α) (x : β) (v : α) :
    List.lookup v (assocSet m k x) = if v = k then some x else List.lookup v m := by
  unfold assocSet
  split
  next hc =>
    by_cases hv : v = k
    · subst hv
      rw [if_pos rfl]
      exact lookup_overwrite_self m x (List.mem_of_elem_eq_true hc)
    · rw [if_neg hv]
      exact lookup_overwrite_ne m x hv
  next hc =>
    rw [lookup_append_single]
    by_cases hv : v = k
    · subst hv
      rw [lookup_not_contains m (eq_false_of_ne_true hc)]
    · rw [if_neg hv]
      cases List.lookup v m <;> simp [hv]

theorem filter_map_eq_flatMap {α γ : Type} (l : List α) (p : α → Bool) (f : α → γ) :
    (l.filter p).map f = l.flatMap (fun a => if p a then [f a] else []) := by
  induction l with
  | nil => rfl
  | cons hd tl ih =>
    cases h : p hd <;> simp [List.filter_cons, h, ih]

theorem flatMap_filter_map_exchange {α β γ : Type} (l1 : List α) (l2 : List β)
    (p : α → β → Bool) (f : α → β → γ) :
    (l2.flatMap (fun b => (l1.filter (fun a => p a b)).map (fun a => f a b))).Perm
      (l1.flatMap (fun a => (l2.filter (fun b => p a b)).map (fun b => f a b))) := by
  have h2 : l2.flatMap (fun b => (l1.filter (fun a => p a b)).map (fun a => f a b))
      = l2.flatMap (fun b => l1.flatMap (fun a => if p a b then [f a b] else [])) :=
    List.flatMap_congr (fun b _ => filter_map_eq_flatMap l1 (fun a => p a b) (fun a => f a b))
  have h1 : l1.flatMap (fun a => (l2.filter (fun b => p a b)).map (fun b => f a b))
      = l1.flatMap (fun a => l2.flatMap (fun b => if p a b then [f a b] else [])) :=
    List.flatMap_congr (fun a _ => filter_map_eq_flatMap l2 (fun b => p a b) (fun b => f a b))
  rw [h1, h2, ← Multiset.coe_eq_coe]
  simp only [← Multiset.coe_bind]
  exact Multiset.bind_bind (l2 : Multiset β) (l1 : Multiset α)

theorem beq_comm_opt (x y : Option Value) : (x == y) = (y == x) := by
  by_cases h : x = y
  · subst h; rfl
  · rw [beq_eq_false_iff_ne.mpr h, beq_eq_false_iff_ne.mpr (Ne.symm h)]

theorem length_le_flatMap {α β : Type} (l : List α) (g : α → List β)
    (h : ∀ a ∈ l, 1 ≤ (g a).length) : l.length ≤ (l.flatMap g).length := by
  induction l with
  | nil => simp
  | cons hd tl ih =>
    simp only [List.flatMap_cons, List.length_append, List.length_cons]
    have h1 := h hd (by simp)
    have h2 := ih (fun a ha => h a (by simp [ha]))
    omega

theorem buildHashMap_getD (key : String) (v : Value) (hv : v ≠ Value.null)
    (rows : List RowData) :
    ∀ m : JoinMap,
    (jmGet (rows.foldl
      (fun m row =>
        match rowGet row key with
        | none => m
        | some w =>
          if w = Value.null then m
          else assocSet m w ((jmGet m w).getD [] ++ [row])) m) v).getD []
    = (jmGet m v).getD [] ++ rows.filter (fun r => rowGet r key == some v) := by
  induction rows with
  | nil => intro m; simp
  | cons r rows ih =>
    intro m
    simp only [List.foldl_cons, List.filter_cons]
    cases hr : rowGet r key with
    | none =>
      simp only [hr]
      have hpred : ((none : Option Value) == some v) = false := rfl
      rw [hpred]
      simp only [Bool.false_eq_true, if_false]
      exact ih m
    | some w =>
      simp only [hr]
      by_cases hw : w = Value.null
      · subst hw
        rw [if_pos rfl]
        have hpred : ((some Value.null : Option Value) == some v) = false :=
          beq_eq_false_iff_ne.mpr (by simp [Ne.symm hv])
        rw [hpred]
        simp only [Bool.false_eq_true, if_false]
        exact ih m
      · rw [if_neg hw, ih]
        unfold jmGet
        rw [lookup_assocSet]
        by_cases hvw : v = w
        · rw [if_pos hvw]
          have hpred : ((some w : Option Value) == some v) = true := by
            rw [beq_iff_eq, hvw]
          rw [hpred, hvw]
          simp [jmGet]
        · rw [if_neg hvw]
          have hpred : ((some w : Option Value) == some v) = false :=
            beq_eq_false_iff_ne.mpr (by
              intro hcon
              exact hvw (Option.some_injective _ hcon).symm)
          rw [hpred]
          simp [jmGet]

theorem jmGet_buildHashMap_getD (rows : List RowData) (key : String) (v : Value)
    (hv : v ≠ Value.null) :
    (jmGet (buildHashMap rows key) v).getD [] =
      rows.filter (fun r => rowGet r key == some v) := by
  unfold buildHashMap
  rw [buildHashMap_getD key v hv rows []]
  simp [jmGet]

theorem jmGet_buildHashMap_some {rows : List RowData} {key : String} {v : Value}
    {ms : List RowData} (hv : v ≠ Value.null)
    (h : jmGet (buildHashMap rows key) v = some ms) :
    ms = rows.filter (fun r => rowGet r key == some v) := by
  have := jmGet_buildHashMap_getD rows key v hv
  rw [h] at this
  simpa using this

theorem jmGet_buildHashMap_none {rows : List RowData} {key : String} {v : Value}
    (hv : v ≠ Value.null) (h : jmGet (buildHashMap rows key) v = none) :
    rows.filter (fun r => rowGet r key == some v) = [] := by
  have := jmGet_buildHashMap_getD rows key v hv
  rw [h] at this
  simpa using this.symm

theorem handleJoinRows_inner_build1 {rows1 rows2 : List RowData} {k1 k2 a1 a2 : String}
    (hlen : rows1.length ≤ rows2.length) :
    handleJoinRows .inner rows1 rows2 k1 k2 a1 a2 = rows2.flatMap (fun L =>
      match rowGet L k2 with
      | none => []
      | some kv =>
        match jmGet (buildHashMap rows1 k1) kv with
        | none => []
        | some ms => ms.map (fun S => createJoinedRow (some S) (some L) a1 a2)) := by
  unfold handleJoinRows pickBuild
  simp only [if_pos hlen]
  simp

theorem handleJoinRows_inner_build2 {rows1 rows2 : List RowData} {k1 k2 a1 a2 : String}
    (hlen : ¬rows1.length ≤ rows2.length) :
    handleJoinRows .inner rows1 rows2 k1 k2 a1 a2 = rows1.flatMap (fun L =>
      match rowGet L k1 with
      | none => []
      | some kv =>
        match jmGet (buildHashMap rows2 k2) kv with
        | none => []
        | some ms => ms.map (fun S => createJoinedRow (some L) (some S) a1 a2)) := by
  unfold handleJoinRows pickBuild
  simp only [if_neg hlen]
  simp

/-! ## Claim theorems -/

/-- C5: for every pair of row sets A and B and join keys `k1`, `k2`, an
INNER JOIN executed by the statement processor returns exactly the set of
joined rows `{(a,b) | a in A, b in B, a.k1 == b.k2}` - each pair emitted
once and fields namespaced by alias - i.e. the hash-join output is a
permutation of the nested-loop join modelled from the spec
(`specInnerJoin`).  The hypotheses say every row carries a present,
non-null join-key value, which holds for all rows inserted through the
statement processor (every declared column is non-nullable and
type-checked on insert). -/
theorem c5_inner_join_correct (rows1 rows2 : List RowData) (k1 k2 a1 a2 : String)
    (h1 : ∀ r ∈ rows1, rowGet r k1 ≠ none ∧ rowGet r k1 ≠ some Value.null)
    (h2 : ∀ r ∈ rows2, rowGet r k2 ≠ none ∧ rowGet r k2 ≠ some Value.null) :
    (handleJoinRows .inner rows1 rows2 k1 k2 a1 a2).Perm
      (specInnerJoin rows1 rows2 k1 k2 a1 a2) := by
  by_cases hlen : rows1.length ≤ rows2.length
  · rw [handleJoinRows_inner_build1 hlen]
    have hbody : (rows2.flatMap (fun L =>
        match rowGet L k2 with
        | none => []
        | some kv =>
          match jmGet (buildHashMap rows1 k1) kv with
          | none => []
          | some ms => ms.map (fun S => createJoinedRow (some S) (some L) a1 a2)))
        = rows2.flatMap (fun L =>
            (rows1.filter (fun a => rowGet a k1 == rowGet L k2)).map
              (fun a => createJoinedRow (some a) (some L) a1 a2)) := by
      apply List.flatMap_congr
      intro L hL
      cases hv : rowGet L k2 with
      | none => exact absurd hv (h2 L hL).1
      | some v =>
        have hvn : v ≠ Value.null := fun he => (h2 L hL).2 (by rw [hv, he])
        cases hj : jmGet (buildHashMap rows1 k1) v with
        | none =>
          rw [jmGet_buildHashMap_none hvn hj]
          simp [hj]
        | some ms =>
          simp only [hj]
          rw [jmGet_buildHashMap_some hvn hj]
    rw [hbody]
    refine (flatMap_filter_map_exchange rows1 rows2
      (fun a b => rowGet a k1 == rowGet b k2)
      (fun a b => createJoinedRow (some a) (some b) a1 a2)).trans ?_
    have heq : (rows1.flatMap (fun a =>
        (rows2.filter (fun b => rowGet a k1 == rowGet b k2)).map
          (fun b => createJoinedRow (some a) (some b) a1 a2)))
        = specInnerJoin rows1 rows2 k1 k2 a1 a2 := by
      unfold specInnerJoin
      apply List.flatMap_congr
      intro a _
      rw [List.filter_congr (fun b _ => beq_comm_opt (rowGet a k1) (rowGet b k2))]
    rw [heq]
  · rw [handleJoinRows_inner_build2 hlen]
    have heq : (rows1.flatMap (fun L =>
        match rowGet L k1 with
        | none => []
        | some kv =>
          match jmGet (buildHashMap rows2 k2) kv with
          | none => []
          | some ms => ms.map (fun S => createJoinedRow (some L) (some S) a1 a2)))
        = specInnerJoin rows1 rows2 k1 k2 a1 a2 := by
      unfold specInnerJoin
      apply List.flatMap_congr
      intro L hL
      cases hv : rowGet L k1 with
      | none => exact absurd hv (h1 L hL).1
      | some v =>
        have hvn : v ≠ Value.null := fun he => (h1 L hL).2 (by rw [hv, he])
        cases hj : jmGet (buildHashMap rows2 k2) v with
        | none =>
          rw [jmGet_buildHashMap_none hvn hj]
          simp [hj]
        | some ms =>
          simp only [hj]
          rw [jmGet_buildHashMap_some hvn hj]
    rw [heq]

/-- Witness for C5 at concrete tables: two customers joined with one
matching order. -/
theorem c5_inner_join_correct_witness :
    (handleJoinRows .inner
      [[("id", Value.num 1)], [("id", Value.num 2)]]
      [[("customer_id", Value.num 1), ("amount", Value.num 500)]]
      "id" "customer_id" "customers" "orders").Perm
      (specInnerJoin
        [[("id", Value.num 1)], [("id", Value.num 2)]]
        [[("customer_id", Value.num 1), ("amount", Value.num 500)]]
        "id" "customer_id" "customers" "orders") :=
  c5_inner_join_correct _ _ _ _ _ _ (by decide) (by decide)

/-- C6: a LEFT JOIN emits, for each row `a` of the first-named table, one
joined row per matching row of the second table and exactly one
null-padded row iff no match exists (`specLeftJoin`, modelled from the
spec), and therefore has at least as many rows as the first table -
regardless of which side is smaller (the proof covers both the hash-map
branch and the linear-scan branch of the source).  The hypotheses say
every row carries a present, non-null join-key value, as is the case for
rows inserted through the statement processor. -/
theorem c6_left_join_correct (rows1 rows2 : List RowData) (k1 k2 a1 a2 : String)
    (h1 : ∀ r ∈ rows1, rowGet r k1 ≠ none ∧ rowGet r k1 ≠ some Value.null)
    (h2 : ∀ r ∈ rows2, rowGet r k2 ≠ none ∧ rowGet r k2 ≠ some Value.null) :
    handleJoinRows .left rows1 rows2 k1 k2 a1 a2 = specLeftJoin rows1 rows2 k1 k2 a1 a2 ∧
    rows1.length ≤ (handleJoinRows .left rows1 rows2 k1 k2 a1 a2).length := by
  have heq : handleJoinRows .left rows1 rows2 k1 k2 a1 a2
      = specLeftJoin rows1 rows2 k1 k2 a1 a2 := by
    unfold handleJoinRows pickBuild specLeftJoin
    by_cases hlen : rows1.length ≤ rows2.length
    · simp only [if_pos hlen]
      apply List.flatMap_congr
      intro a ha
      cases hv : rowGet a k1 with
      | none => exact absurd hv (h1 a ha).1
      | some v =>
        have hfilt : List.filter (fun row2 => rowGet a k1 == rowGet row2 k2) rows2
            = List.filter (fun b => rowGet b k2 == rowGet a k1) rows2 :=
          List.filter_congr (fun b _ => beq_comm_opt _ _)
        have hfilt2 : List.filter (fun row2 => (some v : Option Value) == rowGet row2 k2) rows2
            = List.filter (fun b => rowGet b k2 == some v) rows2 :=
          List.filter_congr (fun b _ => beq_comm_opt _ _)
        have hcond : (∀ b ∈ rows2, ¬(some v : Option Value) = rowGet b k2)
            ↔ (∀ b ∈ rows2, ¬rowGet b k2 = some v) := by
          constructor <;> intro h b hb he <;> exact h b hb he.symm
        cases hj : jmGet (buildHashMap rows1 k1) v <;>
          simp [hv, hj, hfilt, hfilt2, hcond]
    · simp only [if_neg hlen]
      apply List.flatMap_congr
      intro a ha
      cases hv : rowGet a k1 with
      | none => exact absurd hv (h1 a ha).1
      | some v =>
        have hvn : v ≠ Value.null := fun he => (h1 a ha).2 (by rw [hv, he])
        cases hj : jmGet (buildHashMap rows2 k2) v with
        | none =>
          have hf := jmGet_buildHashMap_none hvn hj
          simp [hv, hj, hf]
        | some ms =>
          have hf := jmGet_buildHashMap_some hvn hj
          simp [hv, hj, hf]
  refine ⟨heq, ?_⟩
  rw [heq]
  unfold specLeftJoin
  apply length_le_flatMap
  intro a _
  by_cases hE : (rows2.filter (fun b => rowGet b k2 == rowGet a k1)).isEmpty
  · simp [hE]
  · have hne : rows2.filter (fun b => rowGet b k2 == rowGet a k1) ≠ [] := by
      intro hcon
      rw [hcon] at hE
      exact hE rfl
    simp only [hE, Bool.false_eq_true, if_false, List.length_map]
    exact List.length_pos.mpr hne

/-- Witness for C6 at concrete tables: one matched and one unmatched
customer; the result has 2 rows, at least as many as the left table. -/
theorem c6_left_join_correct_witness :
    (handleJoinRows .left
      [[("id", Value.num 1)], [("id", Value.num 2)]]
      [[("customer_id", Value.num 1), ("amount", Value.num 500)]]
      "id" "customer_id" "customers" "orders"
      = specLeftJoin
        [[("id", Value.num 1)], [("id", Value.num 2)]]
        [[("customer_id", Value.num 1), ("amount", Value.num 500)]]
        "id" "customer_id" "customers" "orders") ∧
    ([[("id", Value.num 1)], [("id", Value.num 2)]] : List RowData).length ≤
      (handleJoinRows .left
        [[("id", Value.num 1)], [("id", Value.num 2)]]
        [[("customer_id", Value.num 1), ("amount", Value.num 500)]]
        "id" "customer_id" "customers" "orders").length :=
  c6_left_join_correct _ _ _ _ _ _ (by decide) (by decide)

/-- C8: in every hash join executed by the statement processor, the build
side chosen by `pickBuild` (the relation that `handleJoinRows` loads into
the hash map via `buildHashMap`) is always one of the two inputs and has
at most as many rows as the probe side, with ties going to the first
table; the larger relation is never hashed. -/
theorem c8_build_side_is_smaller (rows1 rows2 : List RowData) :
    (pickBuild rows1 rows2).1.length ≤ (pickBuild rows1 rows2).2.1.length ∧
    (pickBuild rows1 rows2 = (rows1, rows2, true) ∨
     pickBuild rows1 rows2 = (rows2, rows1, false)) := by
  unfold pickBuild
  by_cases h : rows1.length ≤ rows2.length
  · rw [if_pos h]
    exact ⟨h, Or.inl rfl⟩
  · rw [if_neg h]
    exact ⟨Nat.le_of_lt (Nat.lt_of_not_le h), Or.inr rfl⟩

theorem splitWhereAux_eq_none {ws : List String}
    (h : ∀ w ∈ ws, upperW w ≠ ['W', 'H', 'E', 'R', 'E']) : splitWhereAux ws = none := by
  induction ws with
  | nil => rfl
  | cons w rest ih =>
    have hw : upperW w ≠ ['W', 'H', 'E', 'R', 'E'] := h w (List.mem_cons_self _ _)
    have hrest : splitWhereAux rest = none :=
      ih (fun x hx => h x (List.mem_cons_of_mem _ hx))
    simp [splitWhereAux, hw, hrest]

theorem matchUpdate_eq_none {ws : List String}
    (h : ∀ w ∈ ws, upperW w ≠ ['W', 'H', 'E', 'R', 'E']) : matchUpdate ws = none := by
  rcases ws with _ | ⟨u, _ | ⟨nm, _ | ⟨s, _ | ⟨w0, rest0⟩⟩⟩⟩ <;> try rfl
  have hrest : splitWhereAux rest0 = none :=
    splitWhereAux_eq_none (fun x hx => h x (by simp [hx]))
  simp [matchUpdate, hrest]

theorem matchDelete_eq_none {ws : List String}
    (h : ∀ w ∈ ws, upperW w ≠ ['W', 'H', 'E', 'R', 'E']) : matchDelete ws = none := by
  rcases ws with _ | ⟨d, _ | ⟨f, _ | ⟨nm, _ | ⟨w, _ | ⟨r0, rest⟩⟩⟩⟩⟩ <;> try rfl
  have hw : upperW w ≠ ['W', 'H', 'E', 'R', 'E'] := h w (by simp)
  have hwd : ("WHERE".data : List Char) = ['W', 'H', 'E', 'R', 'E'] := rfl
  simp [matchDelete, hwd, hw]

/-- C9: an UPDATE or DELETE statement whose (whitespace-normalized) text
contains no `WHERE` word fails with the syntax error naming the expected
form, and the table registry is returned untouched: the pattern match
fails before any table is looked up or mutated. -/
theorem c9_update_delete_require_where (db : Db) (ws : List String)
    (h : ∀ w ∈ ws, upperW w ≠ ['W', 'H', 'E', 'R', 'E']) :
    SQLParser.handleUpdate db ws
      = (db, .error "Syntax error in UPDATE. WHERE clause is required for safety.") ∧
    SQLParser.handleDelete db ws
      = (db, .error "Syntax error in DELETE. WHERE clause is required.") := by
  constructor
  · unfold SQLParser.handleUpdate
    rw [matchUpdate_eq_none h]
  · unfold SQLParser.handleDelete
    rw [matchDelete_eq_none h]

/-- Witness for C9: `UPDATE users SET name="Bob"` and
`DELETE FROM users SET id=1`, both without a WHERE clause, on an empty
registry. -/
theorem c9_update_delete_require_where_witness :
    SQLParser.handleUpdate [] ["UPDATE", "users", "SET", "name=\"Bob\""]
      = ([], .error "Syntax error in UPDATE. WHERE clause is required for safety.") ∧
    SQLParser.handleDelete [] ["UPDATE", "users", "SET", "name=\"Bob\""]
      = ([], .error "Syntax error in DELETE. WHERE clause is required.") :=
  c9_update_delete_require_where [] _ (by decide)

theorem parseColumnDef_isNullable {parts : List String} {col : Column}
    (h : parseColumnDef parts = .ok col) : col.isNullable = false := by
  unfold parseColumnDef at h
  cases h0 : parts[0]? with
  | none =>
    rw [h0] at h
    cases h1 : parts[1]? <;> rw [h1] at h <;> cases h
  | some nm =>
    cases h1 : parts[1]? with
    | none =>
      rw [h0, h1] at h
      cases h
    | some ty =>
      rw [h0, h1] at h
      by_cases hs : ty = "string"
      · simp only [hs, if_pos] at h
        cases h
        rfl
      · by_cases hn : ty = "number"
        · simp only [hs, hn, if_neg, if_pos, if_true, if_false] at h
          cases h
          rfl
        · by_cases hb : ty = "boolean"
          · simp only [hs, hn, hb, if_neg, if_pos, if_true, if_false] at h
            cases h
            rfl
          · simp only [hs, hn, hb, if_neg, if_false] at h
            cases h

theorem mapColumns_isNullable :
    ∀ {colsDef : List (List String)} {cols : List Column},
    mapColumns colsDef = .ok cols → ∀ col ∈ cols, col.isNullable = false := by
  intro colsDef
  induction colsDef with
  | nil =>
    intro cols h col hc
    cases h
    cases hc
  | cons d rest ih =>
    intro cols h col hc
    unfold mapColumns at h
    cases hd : parseColumnDef d with
    | error e => rw [hd] at h; cases h
    | ok c0 =>
      rw [hd] at h
      cases hrest : mapColumns rest with
      | error e =>
        rw [hrest] at h
        cases h
      | ok cols0 =>
        rw [hrest] at h
        cases h
        rcases List.mem_cons.1 hc with hc | hc
        · subst hc
          exact parseColumnDef_isNullable hd
        · exact ih hrest col hc

theorem create_go_columns :
    ∀ (name : String) (cs : List Column) (t t' : Table),
    Table.create.go name cs t = .ok t' → t'.columns = t.columns := by
  intro name cs
  induction cs with
  | nil =>
    intro t t' h
    cases h
    rfl
  | cons col rest ih =>
    intro t t' h
    unfold Table.create.go at h
    simp only [bind, Except.bind] at h
    split at h
    · cases h
    · rename_i t1 hstep
      have h1 : t1.columns = t.columns := by
        split at hstep
        · split at hstep
          · cases hstep
          · cases hstep
            rfl
        · cases hstep
          rfl
      have h2 := ih _ _ h
      rw [h2, ← h1]
      repeat' split
      all_goals rfl

theorem table_create_columns {name : String} {cols : List Column} {t : Table}
    (h : Table.create name cols = .ok t) : t.columns = cols := by
  unfold Table.create at h
  exact create_go_columns name cols _ t h

theorem checkTypes_missing :
    ∀ {cols : List Column} {row : RowData},
    (∀ col ∈ cols, col.isNullable = false) →
    (∀ col ∈ cols,
      (match rowGet row col.name with
       | some v => v.hasType col.type
       | none => true) = true) →
    (∃ col ∈ cols, rowGet row col.name = none) →
    ∃ c, checkTypes cols row = some ("Column '" ++ c ++ "' cannot be null") ∧
      ∃ col ∈ cols, col.name = c := by
  intro cols
  induction cols with
  | nil =>
    intro row _ _ hmiss
    obtain ⟨col, hc, _⟩ := hmiss
    cases hc
  | cons col rest ih =>
    intro row hnn hty hmiss
    unfold checkTypes
    cases hv : rowGet row col.name with
    | some v =>
      have hty0 : v.hasType col.type = true := by
        have h0 := hty col (List.mem_cons_self _ _)
        rw [hv] at h0
        simpa using h0
      dsimp only
      rw [hty0]
      simp only [Bool.not_true, Bool.false_eq_true, if_false]
      have hmiss0 : ∃ c0 ∈ rest, rowGet row c0.name = none := by
        obtain ⟨c0, hc0, hn0⟩ := hmiss
        rcases List.mem_cons.1 hc0 with hc0 | hc0
        · subst hc0
          rw [hv] at hn0
          cases hn0
        · exact ⟨c0, hc0, hn0⟩
      obtain ⟨c, hck, c0, hc0, hcn⟩ :=
        ih (fun x hx => hnn x (List.mem_cons_of_mem _ hx))
          (fun x hx => hty x (List.mem_cons_of_mem _ hx)) hmiss0
      exact ⟨c, hck, c0, List.mem_cons_of_mem _ hc0, hcn⟩
    | none =>
      have hnn0 := hnn col (List.mem_cons_self _ _)
      dsimp only
      rw [hnn0, if_pos (by simp)]
      exact ⟨col.name, rfl, col, List.mem_cons_self _ _, rfl⟩

/-- C10: every column created through a CREATE TABLE statement is marked
non-nullable regardless of its definition (the parser's column mapper
never emits a nullable column), so for a table created from such columns
an INSERT statement that omits a value for any declared column fails with
a `cannot be null` error naming a declared column, and inserts nothing:
the table object and the registry entry are unchanged.  The type
hypothesis says the values that *are* provided match their columns'
declared types, so the nullability check is the first that can fail. -/
theorem c10_parser_columns_never_nullable (colsDef : List (List String)) (cols : List Column)
    (h : mapColumns colsDef = .ok cols) :
    (∀ col ∈ cols, col.isNullable = false) ∧
    (∀ (name : String) (t : Table) (icols : List String) (vals : List Value) (db : Db),
      Table.create name cols = .ok t →
      dbGet db name = some t →
      icols.length = vals.length →
      (∀ col ∈ cols,
        (match rowGet (mkRow icols vals) col.name with
         | some v => v.hasType col.type
         | none => true) = true) →
      (∃ col ∈ cols, rowGet (mkRow icols vals) col.name = none) →
      ∃ c, (∃ col ∈ cols, col.name = c) ∧
        t.insert (mkRow icols vals) = (t, some ("Column '" ++ c ++ "' cannot be null")) ∧
        SQLParser.handleInsert db name icols vals
          = (dbSet db name t, .error ("Column '" ++ c ++ "' cannot be null")) ∧
        dbGet (SQLParser.handleInsert db name icols vals).1 name = some t) := by
  refine ⟨mapColumns_isNullable h, ?_⟩
  intro name t icols vals db hcreate hdb hlen hty hmiss
  have hcols : t.columns = cols := table_create_columns hcreate
  obtain ⟨c, hck, hcmem⟩ := checkTypes_missing (mapColumns_isNullable h) hty hmiss
  have hins : t.insert (mkRow icols vals)
      = (t, some ("Column '" ++ c ++ "' cannot be null")) := by
    unfold Table.insert
    rw [hcols, hck]
  refine ⟨c, hcmem, hins, ?_, ?_⟩
  · unfold SQLParser.handleInsert
    rw [if_neg (by omega), hdb]
    dsimp only
    rw [hins]
  · unfold SQLParser.handleInsert
    rw [if_neg (by omega), hdb]
    dsimp only
    rw [hins]
    unfold dbGet dbSet
    rw [lookup_assocSet]
    simp

/-- Witness for C10: `users (id number pk, name string)` with an INSERT
providing only `id`. -/
theorem c10_parser_columns_never_nullable_witness :
    ∃ c, (∃ col ∈ (mapColumns [["id", "number", "pk"], ["name", "string"]]).toOption.getD [],
        col.name = c) ∧
      ((Table.create "users"
          ((mapColumns [["id", "number", "pk"], ["name", "string"]]).toOption.getD
            [])).toOption.getD ⟨"users", [], [], 0, [], [], [], none⟩).insert
          (mkRow ["id"] [Value.num 1])
        = ((Table.create "users"
            ((mapColumns [["id", "number", "pk"], ["name", "string"]]).toOption.getD
              [])).toOption.getD ⟨"users", [], [], 0, [], [], [], none⟩,
           some ("Column '" ++ c ++ "' cannot be null")) := by
  obtain ⟨c, h1, h2, h3, h4⟩ :=
    (c10_parser_columns_never_nullable [["id", "number", "pk"], ["name", "string"]] _ rfl).2 "users" _
      ["id"] [Value.num 1]
      [("users", ((Table.create "users"
          ((mapColumns [["id", "number", "pk"], ["name", "string"]]).toOption.getD
            [])).toOption.getD ⟨"users", [], [], 0, [], [], [], none⟩))]
      rfl rfl rfl (by decide) (by decide)
  exact ⟨c, h1, h2⟩

unseal BTreeNode.insertNonFull BTreeNode.searchGo BTreeNode.searchCell BTreeNode.rangeGo BTreeNode.rangeSearch in
/-- C1 (code bug at the failing input): create a table with numeric
columns `id` and `amount`, insert two rows with the same `amount` 5, then
delete the second row (`id = 2`).  The delete removes the row from the
row store (`rows = [0]`, affected count 1), yet
`selectBetween("amount", 5, 5)` - a range-query method of a numeric
column - still returns the deleted row reference 1: `BTreeIndex.delete`
only searched the *first* entry carrying key 5, because `insertNonFull`
had created a duplicate key entry instead of appending to the existing
key's row list.  This contradicts the claim that after `delete` the row
is reachable via no index. -/
theorem c1_deleted_row_reachable_via_range_index :
    (match Table.create "t" [⟨"id", DataType.number, false, false, false⟩,
                             ⟨"amount", DataType.number, false, false, false⟩] with
     | .error _ => false
     | .ok t0 =>
       let t1 := (t0.insert [("id", Value.num 1), ("amount", Value.num 5)]).1
       let t2 := (t1.insert [("id", Value.num 2), ("amount", Value.num 5)]).1
       let d := t2.delete [("id", Value.num 2)]
       (d.2 == 1) && (d.1.rows == [0]) && (!(d.1.rows.contains 1)) &&
       (d.1.selectBetween "amount" 5 5 == [0, 1]) &&
       (d.1.rowVal 1 "amount" == some (Value.num 5))) = true := by decide

unseal BTreeNode.insertNonFull BTreeNode.searchGo BTreeNode.searchCell BTreeNode.rangeGo BTreeNode.rangeSearch in
/-- C2 (code bug at the failing input): the specification's own
end-to-end scenario - `transactions(amount)` with rows 500, 1500, 250,
3000 and `BETWEEN 500 AND 2000` - fails on the code:
`selectBetween("amount", 500, 2000)` answers `[0, 2, 1]`, which contains
row 2 with `amount = 250`, outside the bounds, while the linear-scan
fallback yields `[0, 1]`.  The cause is the `insertNonFull` shift bug:
inserting 250 in front of 500 leaves both keys sharing one row-list
array, so key 500 reports row 250's reference as well. -/
theorem c2_selectBetween_disagrees_with_scan :
    (match Table.create "transactions" [⟨"amount", DataType.number, false, false, false⟩] with
     | .error _ => false
     | .ok t0 =>
       let t1 := (t0.insert [("amount", Value.num 500)]).1
       let t2 := (t1.insert [("amount", Value.num 1500)]).1
       let t3 := (t2.insert [("amount", Value.num 250)]).1
       let t4 := (t3.insert [("amount", Value.num 3000)]).1
       let viaIndex := t4.selectBetween "amount" 500 2000
       let viaScan := t4.rows.filter (fun rid =>
         match t4.rowVal rid "amount" with
         | some (Value.num n) => decide (500 ≤ n ∧ n ≤ 2000)
         | _ => false)
       (viaIndex == [0, 2, 1]) && (viaScan == [0, 1]) &&
       (t4.rowVal 2 "amount" == some (Value.num 250)) && !(viaIndex == viaScan)) = true := by
  decide

unseal BTreeNode.insertNonFull BTreeNode.searchGo BTreeNode.searchCell BTreeNode.rangeGo BTreeNode.rangeSearch in
/-- C4 (code bug at the failing input): inserting key 5 twice into an
empty order-5 tree creates a *duplicate key entry* (`keys = [5, 5]`)
instead of appending the second row to the existing key's row list, and
`search(5)` consequently returns only `[10]`, missing row 20. -/
theorem c4_duplicate_key_entry_created :
    (let bt := ((BTreeIndex.new "amount" 5).insert 5 10).insert 5 20
     (bt.root.entries.map Prod.fst == [5, 5]) && (bt.search 5 == [10])) = true := by decide

/-- C3 counterexample: the claim as stated fails on a reachable table.
Columns `a` and `c` are both unique; after two clean inserts, the
statement `UPDATE ... SET a = "1", c = "30" WHERE a = "2"` fails on the
uniqueness re-add for `a` and aborts *after* removing row 1 from the `c`
index and mutating it in place.  Row 1 now holds `c = "30"` while no
index bucket records it, so the subsequent insert of a row that repeats
the value `"30"` in the unique column `c` *succeeds* (no
unique-constraint-violation error) and changes the table, contradicting
the claim. -/
theorem c3_counterexample_duplicate_insert_succeeds :
    (match Table.create "t" [⟨"a", DataType.string, false, true, false⟩,
                             ⟨"c", DataType.string, false, true, false⟩] with
     | .error _ => false
     | .ok t0 =>
       let t1 := (t0.insert [("a", Value.str "1"), ("c", Value.str "10")]).1
       let t2 := (t1.insert [("a", Value.str "2"), ("c", Value.str "20")]).1
       let t3 := (t2.update [("a", Value.str "2")] [("a", Value.str "1"), ("c", Value.str "30")]).1
       let res := t3.insert [("a", Value.str "5"), ("c", Value.str "30")]
       res.2.isNone && (t3.rowVal 1 "c" == some (Value.str "30")) &&
       t3.rows.contains 1 &&
       (rowGet [("a", Value.str "5"), ("c", Value.str "30")] "c" == some (Value.str "30")) &&
       (res.1.rows == [0, 1, 2])) = true := by decide

theorem uniquePreCheck_isSome {columns : List Column} :
    ∀ {idxs : List (String × HashIdx)} {r : RowData} {c : String} {idx : HashIdx} {v : Value},
    (c, idx) ∈ idxs →
    rowGet r c = some v →
    v ≠ Value.null →
    (match columns.find? (fun cd => cd.name = c) with
     | some cd => cd.isUnique || cd.isPrimaryKey
     | none => false) = true →
    (idxGet idx v).isSome = true →
    (uniquePreCheck columns idxs r).isSome = true := by
  intro idxs
  induction idxs with
  | nil => intro r c idx v hmem; cases hmem
  | cons hd tl ih =>
    intro r c idx v hmem hrv hvn huniq hbucket
    cases hd with
    | mk c0 idx0 =>
      unfold uniquePreCheck
      rcases List.mem_cons.1 hmem with heq | htl
      · cases heq
        rw [hrv]
        dsimp only
        rw [if_pos]
        · rfl
        · rw [beq_eq_false_iff_ne.mpr hvn]
          simp only [Bool.not_false, Bool.true_and, huniq]
          exact hbucket
      · cases hr0 : rowGet r c0 with
        | none =>
          dsimp only
          exact ih htl hrv hvn huniq hbucket
        | some w =>
          dsimp only
          split
          · rfl
          · exact ih htl hrv hvn huniq hbucket

theorem uniquePreCheck_shape {columns : List Column} :
    ∀ {idxs : List (String × HashIdx)} {r : RowData} {e : String},
    uniquePreCheck columns idxs r = some e →
    ∃ c v, e = uniqueViolationMsg c v := by
  intro idxs
  induction idxs with
  | nil =>
    intro r e h
    cases h
  | cons hd tl ih =>
    intro r e h
    cases hd with
    | mk c0 idx0 =>
      unfold uniquePreCheck at h
      cases hr0 : rowGet r c0 with
      | none =>
        rw [hr0] at h
        exact ih h
      | some w =>
        rw [hr0] at h
        dsimp only at h
        split at h
        · cases h
          exact ⟨c0, w, rfl⟩
        · exact ih h

/-- C3 as amended: for every table whose hash indices are *complete* for
its row store (`hashIndexComplete`, which holds for tables built by
successful inserts and deletes but can be destroyed by a failed
mid-statement UPDATE, as the counterexample shows), inserting a
type-valid row whose value in a primary-key or unique indexed column
equals an existing row's value fails with a unique-constraint-violation
error, and the failed insert returns the table completely unchanged -
same row sequence, same hash indices, same range indices. -/
theorem c3_amended_unique_insert_rejected_unchanged (t : Table) (r : RowData)
    (c : String) (idx : HashIdx) (cd : Column) (v : Value) (rid : Nat)
    (hcomplete : hashIndexComplete t = true)
    (hidx : (c, idx) ∈ t.indices)
    (hfind : t.columns.find? (fun x => x.name = c) = some cd)
    (huniq : (cd.isUnique || cd.isPrimaryKey) = true)
    (hrid : rid ∈ t.rows)
    (hval : t.rowVal rid c = some v)
    (hvn : v ≠ Value.null)
    (hrv : rowGet r c = some v)
    (htypes : checkTypes t.columns r = none) :
    ∃ e, t.insert r = (t, some e) ∧ ∃ c2 v2, e = uniqueViolationMsg c2 v2 := by
  have hbucket : (idxGet idx v).isSome = true := by
    rw [hashIndexComplete, List.all_eq_true] at hcomplete
    have h2 := hcomplete (c, idx) hidx
    rw [List.all_eq_true] at h2
    have h3 := h2 rid hrid
    dsimp only at h3
    rw [hval] at h3
    dsimp only at h3
    rw [beq_eq_false_iff_ne.mpr hvn] at h3
    simpa using h3
  have hpre : (uniquePreCheck t.columns t.indices r).isSome = true :=
    uniquePreCheck_isSome hidx hrv hvn (by rw [hfind]; exact huniq) hbucket
  obtain ⟨e, he⟩ := Option.isSome_iff_exists.1 hpre
  obtain ⟨c2, v2, hshape⟩ := uniquePreCheck_shape he
  refine ⟨e, ?_, c2, v2, hshape⟩
  unfold Table.insert
  rw [htypes]
  dsimp only
  rw [he]

/-- Witness for the amended C3: a one-row table with unique string
column `id`; re-inserting the same `id` value is rejected with the table
returned unchanged. -/
theorem c3_amended_unique_insert_rejected_unchanged_witness :
    ∃ e,
      (((Table.create "users" [⟨"id", DataType.string, false, true, false⟩]).toOption.getD
          ⟨"users", [], [], 0, [], [], [], none⟩).insert [("id", Value.str "u1")]).1.insert
        [("id", Value.str "u1")]
      = ((((Table.create "users" [⟨"id", DataType.string, false, true, false⟩]).toOption.getD
          ⟨"users", [], [], 0, [], [], [], none⟩).insert [("id", Value.str "u1")]).1, some e) ∧
      ∃ c2 v2, e = uniqueViolationMsg c2 v2 :=
  c3_amended_unique_insert_rejected_unchanged
    (((Table.create "users" [⟨"id", DataType.string, false, true, false⟩]).toOption.getD
        ⟨"users", [], [], 0, [], [], [], none⟩).insert [("id", Value.str "u1")]).1
    [("id", Value.str "u1")] "id" [(Value.str "u1", [0])]
    ⟨"id", DataType.string, false, true, false⟩ (Value.str "u1") 0
    (by decide) (by decide) (by decide) (by decide) (by decide) (by decide) (by decide)
    (by decide) (by decide)

/-! ## C7 development: B-tree structural invariant -/

/-- Lower bound constraint on a key (`none` = unbounded). -/
def obound : Option Int → Int → Prop
  | none, _ => True
  | some a, k => a ≤ k

/-- Upper bound constraint on a key (`none` = unbounded). -/
def ubound : Int → Option Int → Prop
  | _, none => True
  | k, some b => k ≤ b

theorem obound_trans {lo : Option Int} {a b : Int} (h : obound lo a) (hab : a ≤ b) :
    obound lo b := by
  cases lo with
  | none => trivial
  | some x => exact le_trans h hab

theorem ubound_trans {hi : Option Int} {a b : Int} (hab : a ≤ b) (h : ubound b hi) :
    ubound a hi := by
  cases hi with
  | none => trivial
  | some x => exact le_trans hab h

/-- Lower bound applying to the child at index `i` of a node with entry
list `es` and outer lower bound `lo`: the key of the entry to the child's
left, if any. -/
def loAt (lo : Option Int) (es : List (Int × Nat)) : Nat → Option Int
  | 0 => lo
  | i + 1 =>
    match es[i]? with
    | some e => some e.1
    | none => none

/-- Upper bound applying to the child at index `i`: the key of the entry
to the child's right (the entry at the same index), if any, else the
outer upper bound. -/
def hiAt (hi : Option Int) (es : List (Int × Nat)) (i : Nat) : Option Int :=
  match es[i]? with
  | some e => some e.1
  | none => hi

/-- `getElem?` of `insertIdx` in all three index regions. -/
theorem getElem?_insertIdx_spec {α : Type} (l : List α) (x : α) :
    ∀ (n : Nat), n ≤ l.length → ∀ (i : Nat),
    (l.insertIdx n x)[i]? = if i < n then l[i]? else if i = n then some x else l[i - 1]? := by
  induction l with
  | nil =>
    intro n hn i
    have hn0 : n = 0 := Nat.le_zero.1 hn
    subst hn0
    cases i <;> simp [List.insertIdx]
  | cons a tl ih =>
    intro n hn i
    cases n with
    | zero =>
      cases i with
      | zero => simp [List.insertIdx]
      | succ j => simp [List.insertIdx]
    | succ m =>
      simp only [List.length_cons, Nat.succ_le_succ_iff] at hn
      cases i with
      | zero => simp [List.insertIdx_succ_cons]
      | succ j =>
        have := ih m hn j
        simp only [List.insertIdx_succ_cons, List.getElem?_cons_succ, this]
        by_cases h1 : j < m
        · simp [h1, Nat.succ_lt_succ h1]
        · by_cases h2 : j = m
          · simp [h1, h2]
          · have hj : 1 ≤ j := by omega
            simp only [if_neg h1, if_neg h2, if_neg (by omega : ¬ (j + 1 < m + 1)),
              if_neg (by omega : ¬ (j + 1 = m + 1))]
            rw [Nat.succ_sub_one]
            cases j with
            | zero => omega
            | succ jj => simp

theorem leafPos_nil (k : Int) : leafPos [] k = 0 := rfl

theorem leafPos_append_single (es : List (Int × Nat)) (a : Int × Nat) (k : Int) :
    leafPos (es ++ [a]) k = if k < a.1 then leafPos es k else es.length + 1 := by
  unfold leafPos
  rw [List.reverse_append]
  simp only [List.reverse_cons, List.reverse_nil, List.nil_append, List.singleton_append,
    List.takeWhile_cons, List.length_append, List.length_cons, List.length_nil]
  by_cases h : k < a.1
  · simp only [decide_eq_true_eq, if_pos h, List.length_cons]
    have hle : (es.reverse.takeWhile (fun e => decide (k < e.1))).length ≤ es.length := by
      have := (List.takeWhile_sublist (l := es.reverse) (fun e => decide (k < e.1))).length_le
      simpa using this
    omega
  · simp only [decide_eq_true_eq, if_neg h, List.length_nil]
    omega

theorem leafPos_le (es : List (Int × Nat)) (k : Int) : leafPos es k ≤ es.length :=
  Nat.sub_le _ _

/-- Every entry at or after the insert position has key strictly above `k`. -/
theorem leafPos_ge_keys (k : Int) :
    ∀ (es : List (Int × Nat)) (i : Nat) (e : Int × Nat),
      leafPos es k ≤ i → es[i]? = some e → k < e.1 := by
  intro es
  induction es using List.reverseRecOn with
  | nil => intro i e _ h2; simp at h2
  | append_singleton tl a ih =>
    intro i e h1 h2
    rw [leafPos_append_single] at h1
    by_cases hk : k < a.1
    · rw [if_pos hk] at h1
      by_cases hi : i < tl.length
      · rw [List.getElem?_append_left hi] at h2
        exact ih i e h1 h2
      · have hlen : i < tl.length + 1 := by
          have := (List.getElem?_eq_some_iff.1 h2).1
          simpa using this
        have hieq : i = tl.length := by omega
        subst hieq
        rw [List.getElem?_concat_length] at h2
        cases h2
        exact hk
    · rw [if_neg hk] at h1
      have hlen : i < tl.length + 1 := by
        have := (List.getElem?_eq_some_iff.1 h2).1
        simpa using this
      omega

/-- With sorted entries, every entry before the insert position has key
at most `k`. -/
theorem leafPos_lt_keys (k : Int) :
    ∀ (es : List (Int × Nat)), List.Pairwise (fun a b => a.1 ≤ b.1) es →
      ∀ (i : Nat) (e : Int × Nat), i < leafPos es k → es[i]? = some e → e.1 ≤ k := by
  intro es
  induction es using List.reverseRecOn with
  | nil => intro _ i e h1 _; simp [leafPos_nil] at h1
  | append_singleton tl a ih =>
    intro hsort i e h1 h2
    rw [leafPos_append_single] at h1
    have hsort1 : List.Pairwise (fun a b => a.1 ≤ b.1) tl :=
      hsort.sublist (List.sublist_append_left tl [a])
    by_cases hk : k < a.1
    · rw [if_pos hk] at h1
      have hi : i < tl.length := lt_of_lt_of_le h1 (leafPos_le tl k)
      rw [List.getElem?_append_left hi] at h2
      exact ih hsort1 i e h1 h2
    · rw [if_neg hk] at h1
      push_neg at hk
      by_cases hi : i < tl.length
      · rw [List.getElem?_append_left hi] at h2
        have hmem : e ∈ tl := List.getElem?_mem h2
        have hea : e.1 ≤ a.1 := by
          rcases List.pairwise_append.1 hsort with ⟨_, _, hcross⟩
          exact hcross e hmem a (by simp)
        exact le_trans hea hk
      · have hlen : i < tl.length + 1 := by
          have := (List.getElem?_eq_some_iff.1 h2).1
          simpa using this
        have hieq : i = tl.length := by omega
        subst hieq
        rw [List.getElem?_concat_length] at h2
        cases h2
        exact hk

/-- Structural well-formedness of a B-tree node of order `order`, with
`minC` the minimum admissible number of entries (0 for the root,
`order - 1` for every other node) and `lo`/`hi` the inclusive key bounds
inherited from the ancestors: entry count in `[minC, 2*order - 1]`, keys
sorted and inside the bounds, a leaf has no children, an internal node
has one child more than entries, and every child is well-formed for the
bounds cut by the neighbouring keys. -/
inductive WFN (order : Nat) : Nat → Option Int → Option Int → BTreeNode → Prop
  | mk {minC : Nat} {lo hi : Option Int} {l : Bool} {es : List (Int × Nat)}
      {cs : List BTreeNode}
      (hmin : minC ≤ es.length)
      (hmax : es.length ≤ 2 * order - 1)
      (hsorted : List.Pairwise (fun a b => a.1 ≤ b.1) es)
      (hlo : ∀ e ∈ es, obound lo e.1)
      (hhi : ∀ e ∈ es, ubound e.1 hi)
      (hleaf : l = true → cs = [])
      (hints : l = false → cs.length = es.length + 1)
      (hch : ∀ i c, cs[i]? = some c →
        WFN order (order - 1) (loAt lo es i) (hiAt hi es i) c) :
      WFN order minC lo hi (.mk l es cs)

theorem WFN.entries_min {order minC : Nat} {lo hi : Option Int} {n : BTreeNode}
    (h : WFN order minC lo hi n) : minC ≤ n.entries.length := by
  cases h with
  | mk hmin => exact hmin

theorem WFN.entries_max {order minC : Nat} {lo hi : Option Int} {n : BTreeNode}
    (h : WFN order minC lo hi n) : n.entries.length ≤ 2 * order - 1 := by
  cases h with
  | mk hmin hmax => exact hmax

theorem WFN.mono {order minC minC' : Nat} {lo hi : Option Int} {n : BTreeNode}
    (h : WFN order minC lo hi n) (hm : minC' ≤ minC) : WFN order minC' lo hi n := by
  cases h with
  | mk hmin hmax hsorted hlo hhi hleaf hints hch =>
    exact WFN.mk (le_trans hm hmin) hmax hsorted hlo hhi hleaf hints hch

theorem pairwise_getElem?_rel {α : Type} {R : α → α → Prop} {l : List α}
    (h : List.Pairwise R l) {i j : Nat} {a b : α} (hij : i < j)
    (ha : l[i]? = some a) (hb : l[j]? = some b) : R a b := by
  rcases List.getElem?_eq_some_iff.1 ha with ⟨hi, hia⟩
  rcases List.getElem?_eq_some_iff.1 hb with ⟨hj, hjb⟩
  have := (List.pairwise_iff_getElem).1 h i j hi hj hij
  rw [hia, hjb] at this
  exact this

theorem loAt_zero (lo : Option Int) (es : List (Int × Nat)) : loAt lo es 0 = lo := rfl

theorem loAt_succ (lo : Option Int) (es : List (Int × Nat)) (j : Nat) :
    loAt lo es (j + 1) =
      match es[j]? with
      | some e => some e.1
      | none => none := rfl

theorem hiAt_eq (hi : Option Int) (es : List (Int × Nat)) (i : Nat) :
    hiAt hi es i =
      match es[i]? with
      | some e => some e.1
      | none => hi := rfl

/-- The entry at any index of a well-formed node respects the node's
bounds. -/
theorem WFN.entry_bounds {order minC : Nat} {lo hi : Option Int} {l : Bool}
    {es : List (Int × Nat)} {cs : List BTreeNode}
    (h : WFN order minC lo hi (.mk l es cs)) {i : Nat} {e : Int × Nat}
    (he : es[i]? = some e) : obound lo e.1 ∧ ubound e.1 hi := by
  cases h with
  | mk hmin hmax hsorted hlo hhi hleaf hints hch =>
    have hmem : e ∈ es := List.getElem?_mem he
    exact ⟨hlo e hmem, hhi e hmem⟩

/-- The lower half produced by `splitChild` (the entries below the
median, kept in the original child slot) is well-formed between the
child's lower bound and the median key. -/
theorem splitLow_WFN {order : Nat} (h2 : 2 ≤ order) {mc : Nat} {flo fhi : Option Int}
    {fl : Bool} {fes : List (Int × Nat)} {fcs : List BTreeNode}
    (hwf : WFN order mc flo fhi (.mk fl fes fcs))
    (hlen : fes.length = 2 * order - 1)
    {med : Int × Nat} (hmed : fes[order - 1]? = some med) :
    WFN order (order - 1) flo (some med.1)
      (.mk fl (fes.take (order - 1))
        (if fl = true then fcs else fcs.take (order - 1 + 1))) := by
  cases hwf with
  | mk hmin hmax hsorted hlo hhi hleaf hints hch =>
    refine WFN.mk ?_ ?_ ?_ ?_ ?_ ?_ ?_ ?_
    · rw [List.length_take]; omega
    · rw [List.length_take]; omega
    · exact List.Pairwise.sublist (List.take_sublist _ _) hsorted
    · intro e he
      exact hlo e (List.mem_of_mem_take he)
    · intro e he
      rcases List.mem_iff_getElem?.1 he with ⟨j, hj⟩
      rw [List.getElem?_take] at hj
      by_cases hjlt : j < order - 1
      · rw [if_pos hjlt] at hj
        show e.1 ≤ med.1
        exact pairwise_getElem?_rel hsorted hjlt hj hmed
      · rw [if_neg hjlt] at hj
        cases hj
    · intro hfl
      rw [if_pos hfl]
      exact hleaf hfl
    · intro hfl
      rw [if_neg (by rw [hfl]; exact Bool.false_ne_true), List.length_take,
        List.length_take, hints hfl]
      omega
    · intro i c hic
      by_cases hfl : fl = true
      · rw [if_pos hfl, hleaf hfl] at hic
        simp at hic
      · rw [if_neg hfl, List.getElem?_take] at hic
        by_cases hilt : i < order - 1 + 1
        · rw [if_pos hilt] at hic
          have hgoal := hch i c hic
          have hlo_eq : loAt flo (fes.take (order - 1)) i = loAt flo fes i := by
            cases i with
            | zero => rfl
            | succ j =>
              rw [loAt_succ, loAt_succ, List.getElem?_take, if_pos (by omega)]
          have hhi_eq : hiAt (some med.1) (fes.take (order - 1)) i = hiAt fhi fes i := by
            by_cases hi1 : i < order - 1
            · rw [hiAt_eq, hiAt_eq, List.getElem?_take, if_pos hi1]
              cases he : fes[i]? with
              | none =>
                have := List.getElem?_eq_none_iff.1 he
                omega
              | some e => rfl
            · have hieq : i = order - 1 := by omega
              subst hieq
              rw [hiAt_eq, hiAt_eq, List.getElem?_take, if_neg (by omega), hmed]
          rw [hlo_eq, hhi_eq]
          exact hgoal
        · rw [if_neg hilt] at hic
          cases hic

/-- The upper half produced by `splitChild` (the entries above the
median, moved into a fresh node) is well-formed between the median key
and the child's upper bound. -/
theorem splitHigh_WFN {order : Nat} (h2 : 2 ≤ order) {mc : Nat} {flo fhi : Option Int}
    {fl : Bool} {fes : List (Int × Nat)} {fcs : List BTreeNode}
    (hwf : WFN order mc flo fhi (.mk fl fes fcs))
    (hlen : fes.length = 2 * order - 1)
    {med : Int × Nat} (hmed : fes[order - 1]? = some med) :
    WFN order (order - 1) (some med.1) fhi
      (.mk fl (fes.drop (order - 1 + 1))
        (if fl = true then [] else fcs.drop (order - 1 + 1))) := by
  cases hwf with
  | mk hmin hmax hsorted hlo hhi hleaf hints hch =>
    refine WFN.mk ?_ ?_ ?_ ?_ ?_ ?_ ?_ ?_
    · rw [List.length_drop]; omega
    · rw [List.length_drop]; omega
    · exact List.Pairwise.sublist (List.drop_sublist _ _) hsorted
    · intro e he
      rcases List.mem_iff_getElem?.1 he with ⟨j, hj⟩
      rw [List.getElem?_drop] at hj
      show med.1 ≤ e.1
      exact pairwise_getElem?_rel hsorted (by omega) hmed hj
    · intro e he
      exact hhi e (List.mem_of_mem_drop he)
    · intro hfl
      rw [if_pos hfl]
    · intro hfl
      rw [if_neg (by rw [hfl]; exact Bool.false_ne_true), List.length_drop,
        List.length_drop, hints hfl]
      omega
    · intro i c hic
      by_cases hfl : fl = true
      · rw [if_pos hfl] at hic
        simp at hic
      · rw [if_neg hfl, List.getElem?_drop] at hic
        have hgoal := hch (order - 1 + 1 + i) c hic
        have hlo_eq : loAt (some med.1) (fes.drop (order - 1 + 1)) i
            = loAt flo fes (order - 1 + 1 + i) := by
          cases i with
          | zero =>
            rw [loAt_zero]
            show some med.1 = loAt flo fes (order - 1 + 1)
            rw [loAt_succ, hmed]
          | succ j =>
            show loAt (some med.1) (fes.drop (order - 1 + 1)) (j + 1)
              = loAt flo fes (order - 1 + 1 + j + 1)
            rw [loAt_succ, loAt_succ, List.getElem?_drop]
        have hhi_eq : hiAt fhi (fes.drop (order - 1 + 1)) i
            = hiAt fhi fes (order - 1 + 1 + i) := by
          rw [hiAt_eq, hiAt_eq, List.getElem?_drop]
        rw [hlo_eq, hhi_eq]
        exact hgoal

theorem insertIdx_eq_take_cons_drop {α : Type} (x : α) :
    ∀ (l : List α) (n : Nat), n ≤ l.length →
      l.insertIdx n x = l.take n ++ x :: l.drop n := by
  intro l
  induction l with
  | nil =>
    intro n hn
    have hn0 : n = 0 := Nat.le_zero.1 hn
    subst hn0
    rfl
  | cons a tl ih =>
    intro n hn
    cases n with
    | zero => rfl
    | succ m =>
      simp only [List.length_cons, Nat.succ_le_succ_iff] at hn
      simp only [List.insertIdx_succ_cons, List.take_succ_cons, List.drop_succ_cons,
        List.cons_append, ih m hn]

/-- Inserting an entry at a position separating the smaller-or-equal keys
from the larger keys preserves sortedness. -/
theorem pairwise_insertIdx {es : List (Int × Nat)} {p : Nat} (hp : p ≤ es.length)
    (hsorted : List.Pairwise (fun a b => a.1 ≤ b.1) es) {x : Int × Nat}
    (hlow : ∀ j e, j < p → es[j]? = some e → e.1 ≤ x.1)
    (hhigh : ∀ j e, p ≤ j → es[j]? = some e → x.1 ≤ e.1) :
    List.Pairwise (fun a b => a.1 ≤ b.1) (es.insertIdx p x) := by
  rw [insertIdx_eq_take_cons_drop x es p hp]
  rw [List.pairwise_append]
  have htake : ∀ a ∈ es.take p, a.1 ≤ x.1 := by
    intro a ha
    rcases List.mem_iff_getElem?.1 ha with ⟨j, hj⟩
    rw [List.getElem?_take] at hj
    by_cases hjp : j < p
    · rw [if_pos hjp] at hj
      exact hlow j a hjp hj
    · rw [if_neg hjp] at hj
      cases hj
  have hdrop : ∀ b ∈ es.drop p, x.1 ≤ b.1 := by
    intro b hb
    rcases List.mem_iff_getElem?.1 hb with ⟨j, hj⟩
    rw [List.getElem?_drop] at hj
    exact hhigh (p + j) b (by omega) hj
  refine ⟨List.Pairwise.sublist (List.take_sublist _ _) hsorted, ?_, ?_⟩
  · rw [List.pairwise_cons]
    exact ⟨hdrop, List.Pairwise.sublist (List.drop_sublist _ _) hsorted⟩
  · intro a ha b hb
    rcases List.mem_cons.1 hb with hb1 | hb1
    · rw [hb1]
      exact htake a ha
    · exact le_trans (htake a ha) (hdrop b hb1)

/-- Replacing a child with a node that is well-formed for the same slot
preserves the parent's well-formedness. -/
theorem WFN_set_child {order minC : Nat} {lo hi : Option Int} {l : Bool}
    {es : List (Int × Nat)} {cs : List BTreeNode}
    (hwf : WFN order minC lo hi (.mk l es cs)) {p : Nat} {c' : BTreeNode}
    (hc' : WFN order (order - 1) (loAt lo es p) (hiAt hi es p) c') :
    WFN order minC lo hi (.mk l es (cs.set p c')) := by
  cases hwf with
  | mk hmin hmax hsorted hlo hhi hleaf hints hch =>
    refine WFN.mk hmin hmax hsorted hlo hhi ?_ ?_ ?_
    · intro hfl
      rw [hleaf hfl]
      rfl
    · intro hfl
      rw [List.length_set]
      exact hints hfl
    · intro i c hic
      rw [List.getElem?_set] at hic
      by_cases hpi : p = i
      · rw [if_pos hpi] at hic
        by_cases hpl : p < cs.length
        · rw [if_pos hpl] at hic
          cases hic
          rw [← hpi]
          exact hc'
        · rw [if_neg hpl] at hic
          cases hic
      · rw [if_neg hpi] at hic
        exact hch i c hic

theorem WFN.entry_bounds_node {order minC : Nat} {lo hi : Option Int} {n : BTreeNode}
    (h : WFN order minC lo hi n) {i : Nat} {e : Int × Nat}
    (he : n.entries[i]? = some e) : obound lo e.1 ∧ ubound e.1 hi := by
  cases n with
  | mk l es cs => exact h.entry_bounds he

theorem loAt_insertIdx_le {lo : Option Int} {es : List (Int × Nat)} {p : Nat}
    (hp : p ≤ es.length) (x : Int × Nat) {i : Nat} (hi : i ≤ p) :
    loAt lo (es.insertIdx p x) i = loAt lo es i := by
  cases i with
  | zero => rfl
  | succ j =>
    rw [loAt_succ, loAt_succ, getElem?_insertIdx_spec es x p hp j, if_pos (by omega)]

theorem hiAt_insertIdx_lt {hi : Option Int} {es : List (Int × Nat)} {p : Nat}
    (hp : p ≤ es.length) (x : Int × Nat) {i : Nat} (hilt : i < p) :
    hiAt hi (es.insertIdx p x) i = hiAt hi es i := by
  rw [hiAt_eq, hiAt_eq, getElem?_insertIdx_spec es x p hp i, if_pos hilt]

theorem hiAt_insertIdx_self {hi : Option Int} {es : List (Int × Nat)} {p : Nat}
    (hp : p ≤ es.length) (x : Int × Nat) :
    hiAt hi (es.insertIdx p x) p = some x.1 := by
  rw [hiAt_eq, getElem?_insertIdx_spec es x p hp p, if_neg (by omega), if_pos rfl]

theorem loAt_insertIdx_succ_self {lo : Option Int} {es : List (Int × Nat)} {p : Nat}
    (hp : p ≤ es.length) (x : Int × Nat) :
    loAt lo (es.insertIdx p x) (p + 1) = some x.1 := by
  rw [loAt_succ, getElem?_insertIdx_spec es x p hp p, if_neg (by omega), if_pos rfl]

theorem hiAt_insertIdx_succ {hi : Option Int} {es : List (Int × Nat)} {p : Nat}
    (hp : p ≤ es.length) (x : Int × Nat) {i : Nat} (hgt : p + 1 ≤ i) :
    hiAt hi (es.insertIdx p x) i = hiAt hi es (i - 1) := by
  rw [hiAt_eq, hiAt_eq, getElem?_insertIdx_spec es x p hp i,
    if_neg (by omega), if_neg (by omega)]

theorem loAt_insertIdx_ge {lo : Option Int} {es : List (Int × Nat)} {p : Nat}
    (hp : p ≤ es.length) (x : Int × Nat) {i : Nat} (hgt : p + 2 ≤ i) :
    loAt lo (es.insertIdx p x) i = loAt lo es (i - 1) := by
  obtain ⟨j, rfl⟩ : ∃ j, i = j + 1 := ⟨i - 1, by omega⟩
  obtain ⟨j2, rfl⟩ : ∃ j2, j = j2 + 1 := ⟨j - 1, by omega⟩
  rw [loAt_succ, getElem?_insertIdx_spec es x p hp (j2 + 1),
    if_neg (by omega), if_neg (by omega)]
  show _ = loAt lo es (j2 + 1)
  rw [loAt_succ]
  have hidx : j2 + 1 - 1 = j2 := by omega
  rw [hidx]

theorem splitLow_WFN_node {order : Nat} (h2 : 2 ≤ order) {mc : Nat} {flo fhi : Option Int}
    {full : BTreeNode} (hwf : WFN order mc flo fhi full)
    (hlen : full.entries.length = 2 * order - 1)
    {med : Int × Nat} (hmed : full.entries[order - 1]? = some med) :
    WFN order (order - 1) flo (some med.1)
      (.mk full.isLeaf (full.entries.take (order - 1))
        (if full.isLeaf = true then full.children
         else full.children.take (order - 1 + 1))) := by
  cases full with
  | mk fl fes fcs => exact splitLow_WFN h2 hwf hlen hmed

theorem splitHigh_WFN_node {order : Nat} (h2 : 2 ≤ order) {mc : Nat} {flo fhi : Option Int}
    {full : BTreeNode} (hwf : WFN order mc flo fhi full)
    (hlen : full.entries.length = 2 * order - 1)
    {med : Int × Nat} (hmed : full.entries[order - 1]? = some med) :
    WFN order (order - 1) (some med.1) fhi
      (.mk full.isLeaf (full.entries.drop (order - 1 + 1))
        (if full.isLeaf = true then [] else full.children.drop (order - 1 + 1))) := by
  cases full with
  | mk fl fes fcs => exact splitHigh_WFN h2 hwf hlen hmed

/-- `splitChild` of a full, existing child of a non-full well-formed
parent: explicit shape of the result, and preservation of
well-formedness. -/
theorem splitChild_WFN {order : Nat} (h2 : 2 ≤ order) {minC : Nat} {lo hi : Option Int}
    {l : Bool} {es : List (Int × Nat)} {cs : List BTreeNode}
    (hwf : WFN order minC lo hi (.mk l es cs))
    (hnf : es.length < 2 * order - 1)
    {p : Nat} {full : BTreeNode} (hp : cs[p]? = some full)
    (hfullen : full.entries.length = 2 * order - 1)
    {med : Int × Nat} (hmed : full.entries[order - 1]? = some med) :
    BTreeNode.splitChild order (.mk l es cs) p
      = .mk l (es.insertIdx p med)
          ((cs.set p (.mk full.isLeaf (full.entries.take (order - 1))
              (if full.isLeaf = true then full.children
               else full.children.take (order - 1 + 1)))).insertIdx (p + 1)
            (.mk full.isLeaf (full.entries.drop (order - 1 + 1))
              (if full.isLeaf = true then [] else full.children.drop (order - 1 + 1)))) ∧
    WFN order minC lo hi (BTreeNode.splitChild order (.mk l es cs) p) := by
  have heq : BTreeNode.splitChild order (.mk l es cs) p
      = .mk l (es.insertIdx p med)
          ((cs.set p (.mk full.isLeaf (full.entries.take (order - 1))
              (if full.isLeaf = true then full.children
               else full.children.take (order - 1 + 1)))).insertIdx (p + 1)
            (.mk full.isLeaf (full.entries.drop (order - 1 + 1))
              (if full.isLeaf = true then [] else full.children.drop (order - 1 + 1)))) := by
    simp only [BTreeNode.splitChild, hp, hmed]
  refine ⟨heq, ?_⟩
  rw [heq]
  cases hwf with
  | mk hmin hmax hsorted hlo hhi hleaf hints hch =>
    have hfullwf : WFN order (order - 1) (loAt lo es p) (hiAt hi es p) full := hch p full hp
    have hlf : l = false := by
      cases hl : l
      · rfl
      · rw [hleaf hl] at hp
        cases hp
    have hplt : p < cs.length := (List.getElem?_eq_some_iff.1 hp).1
    have hclen : cs.length = es.length + 1 := hints hlf
    have hpes : p ≤ es.length := by omega
    have hmedb := WFN.entry_bounds_node hfullwf hmed
    have hmed_low : ∀ j e, j < p → es[j]? = some e → e.1 ≤ med.1 := by
      intro j e hj he
      obtain ⟨j2, rfl⟩ : ∃ j2, p = j2 + 1 := ⟨p - 1, by omega⟩
      have he2 : ∃ e2, es[j2]? = some e2 := by
        cases he2 : es[j2]? with
        | none =>
          have := List.getElem?_eq_none_iff.1 he2
          omega
        | some e2 => exact ⟨e2, rfl⟩
      rcases he2 with ⟨e2, he2⟩
      have hlo2 : e2.1 ≤ med.1 := by
        have := hmedb.1
        rw [loAt_succ, he2] at this
        exact this
      by_cases hjj : j = j2
      · subst hjj
        rw [he] at he2
        cases he2
        exact hlo2
      · exact le_trans (pairwise_getElem?_rel hsorted (by omega) he he2) hlo2
    have hmed_high : ∀ j e, p ≤ j → es[j]? = some e → med.1 ≤ e.1 := by
      intro j e hj he
      have he2 : ∃ e2, es[p]? = some e2 := by
        cases he2 : es[p]? with
        | none =>
          have hlen := List.getElem?_eq_none_iff.1 he2
          have hlen2 := (List.getElem?_eq_some_iff.1 he).1
          omega
        | some e2 => exact ⟨e2, rfl⟩
      rcases he2 with ⟨e2, he2⟩
      have hhi2 : med.1 ≤ e2.1 := by
        have := hmedb.2
        rw [hiAt_eq, he2] at this
        exact this
      by_cases hjj : j = p
      · subst hjj
        rw [he] at he2
        cases he2
        exact hhi2
      · exact le_trans hhi2 (pairwise_getElem?_rel hsorted (by omega) he2 he)
    have hmlo : obound lo med.1 := by
      cases hp0 : p with
      | zero =>
        have := hmedb.1
        rw [hp0, loAt_zero] at this
        exact this
      | succ j2 =>
        have hb := hmedb.1
        rw [hp0, loAt_succ] at hb
        cases he2 : es[j2]? with
        | none =>
          have := List.getElem?_eq_none_iff.1 he2
          omega
        | some e2 =>
          rw [he2] at hb
          exact obound_trans (hlo e2 (List.getElem?_mem he2)) hb
    have hmhi : ubound med.1 hi := by
      have hb := hmedb.2
      rw [hiAt_eq] at hb
      cases he2 : es[p]? with
      | none =>
        rw [he2] at hb
        exact hb
      | some e2 =>
        rw [he2] at hb
        exact ubound_trans hb (hhi e2 (List.getElem?_mem he2))
    have hsetlen : (cs.set p (BTreeNode.mk full.isLeaf (full.entries.take (order - 1))
        (if full.isLeaf = true then full.children
         else full.children.take (order - 1 + 1)))).length = cs.length :=
      List.length_set cs _ _
    refine WFN.mk ?_ ?_ ?_ ?_ ?_ ?_ ?_ ?_
    · rw [List.length_insertIdx p es hpes]
      omega
    · rw [List.length_insertIdx p es hpes]
      omega
    · exact pairwise_insertIdx hpes hsorted hmed_low hmed_high
    · intro e he
      rcases (List.mem_insertIdx hpes).1 he with he1 | he1
      · rw [he1]
        exact hmlo
      · exact hlo e he1
    · intro e he
      rcases (List.mem_insertIdx hpes).1 he with he1 | he1
      · rw [he1]
        exact hmhi
      · exact hhi e he1
    · intro hl2
      rw [hlf] at hl2
      cases hl2
    · intro _
      rw [List.length_insertIdx _ _ (by rw [hsetlen]; omega), hsetlen,
        List.length_insertIdx p es hpes]
      omega
    · intro i c hic
      rw [getElem?_insertIdx_spec _ _ (p + 1) (by rw [hsetlen]; omega) i] at hic
      by_cases hi1 : i < p + 1
      · rw [if_pos hi1, List.getElem?_set] at hic
        by_cases hi2 : p = i
        · subst hi2
          rw [if_pos rfl, if_pos hplt] at hic
          cases hic
          rw [loAt_insertIdx_le hpes med (le_refl p), hiAt_insertIdx_self hpes med]
          exact splitLow_WFN_node h2 hfullwf hfullen hmed
        · rw [if_neg hi2] at hic
          have hilt : i < p := by omega
          rw [loAt_insertIdx_le hpes med (by omega), hiAt_insertIdx_lt hpes med hilt]
          exact hch i c hic
      · by_cases hi2 : i = p + 1
        · rw [if_neg hi1, if_pos hi2] at hic
          cases hic
          subst hi2
          rw [loAt_insertIdx_succ_self hpes med, hiAt_insertIdx_succ hpes med (le_refl (p + 1))]
          have hidx : p + 1 - 1 = p := by omega
          rw [hidx]
          exact splitHigh_WFN_node h2 hfullwf hfullen hmed
        · rw [if_neg hi1, if_neg hi2, List.getElem?_set, if_neg (by omega)] at hic
          rw [loAt_insertIdx_ge hpes med (by omega), hiAt_insertIdx_succ hpes med (by omega)]
          exact hch (i - 1) c hic

theorem WFN.child {order minC : Nat} {lo hi : Option Int} {l : Bool}
    {es : List (Int × Nat)} {cs : List BTreeNode}
    (h : WFN order minC lo hi (.mk l es cs)) {i : Nat} {c : BTreeNode}
    (hc : cs[i]? = some c) : WFN order (order - 1) (loAt lo es i) (hiAt hi es i) c := by
  cases h with
  | mk hmin hmax hsorted hlo hhi hleaf hints hch => exact hch i c hc

theorem WFN.sorted_entries {order minC : Nat} {lo hi : Option Int} {l : Bool}
    {es : List (Int × Nat)} {cs : List BTreeNode}
    (h : WFN order minC lo hi (.mk l es cs)) :
    List.Pairwise (fun a b => a.1 ≤ b.1) es := by
  cases h with
  | mk hmin hmax hsorted => exact hsorted

/-- The key being inserted respects the lower bound of the child slot
`leafPos` selects. -/
theorem obound_loAt_leafPos {lo : Option Int} {es : List (Int × Nat)}
    (hsorted : List.Pairwise (fun a b => a.1 ≤ b.1) es) {k : Int} (hk1 : obound lo k) :
    obound (loAt lo es (leafPos es k)) k := by
  cases hp : leafPos es k with
  | zero => rw [loAt_zero]; exact hk1
  | succ j =>
    rw [loAt_succ]
    cases he : es[j]? with
    | none => trivial
    | some e => exact leafPos_lt_keys k es hsorted j e (by omega) he

/-- The key being inserted respects the upper bound of the child slot
`leafPos` selects. -/
theorem ubound_hiAt_leafPos {hi : Option Int} {es : List (Int × Nat)}
    {k : Int} (hk2 : ubound k hi) :
    ubound k (hiAt hi es (leafPos es k)) := by
  rw [hiAt_eq]
  cases he : es[leafPos es k]? with
  | none => exact hk2
  | some e => exact le_of_lt (leafPos_ge_keys k es (leafPos es k) e (le_refl _) he)

/-- Inserting at the position `leafPos` selects preserves a leaf's
well-formedness. -/
theorem WFN_leaf_insert {order minC : Nat} {lo hi : Option Int} {l : Bool}
    {es : List (Int × Nat)} {cs : List BTreeNode}
    (hwf : WFN order minC lo hi (.mk l es cs)) (hl : l = true)
    (hnf : es.length < 2 * order - 1) {k : Int} (hk1 : obound lo k) (hk2 : ubound k hi)
    (v : Nat) :
    WFN order minC lo hi (.mk l (es.insertIdx (leafPos es k) (k, v)) cs) := by
  cases hwf with
  | mk hmin hmax hsorted hlo hhi hleaf hints hch =>
    have hpes : leafPos es k ≤ es.length := leafPos_le es k
    refine WFN.mk ?_ ?_ ?_ ?_ ?_ hleaf ?_ ?_
    · rw [List.length_insertIdx _ _ hpes]
      omega
    · rw [List.length_insertIdx _ _ hpes]
      omega
    · refine pairwise_insertIdx hpes hsorted ?_ ?_
      · intro j e hj he
        exact leafPos_lt_keys k es hsorted j e hj he
      · intro j e hj he
        exact le_of_lt (leafPos_ge_keys k es j e hj he)
    · intro e he
      rcases (List.mem_insertIdx hpes).1 he with he1 | he1
      · rw [he1]
        exact hk1
      · exact hlo e he1
    · intro e he
      rcases (List.mem_insertIdx hpes).1 he with he1 | he1
      · rw [he1]
        exact hk2
      · exact hhi e he1
    · intro hl2
      rw [hl2] at hl
      cases hl
    · intro i c hic
      rw [hleaf hl] at hic
      cases hic

/-- Splitting a full root under a fresh internal parent yields a
well-formed tree whose two children hold exactly `order - 1` entries. -/
theorem splitRoot_WFN {order : Nat} (h2 : 2 ≤ order) {root : BTreeNode}
    (hwf : WFN order 0 none none root)
    (hfullen : root.entries.length = 2 * order - 1)
    {med : Int × Nat} (hmed : root.entries[order - 1]? = some med) :
    BTreeNode.splitChild order (.mk false [] [root]) 0
      = .mk false [med]
          [.mk root.isLeaf (root.entries.take (order - 1))
             (if root.isLeaf = true then root.children
              else root.children.take (order - 1 + 1)),
           .mk root.isLeaf (root.entries.drop (order - 1 + 1))
             (if root.isLeaf = true then [] else root.children.drop (order - 1 + 1))] ∧
    WFN order 0 none none (BTreeNode.splitChild order (.mk false [] [root]) 0) := by
  have heq : BTreeNode.splitChild order (.mk false [] [root]) 0
      = .mk false [med]
          [.mk root.isLeaf (root.entries.take (order - 1))
             (if root.isLeaf = true then root.children
              else root.children.take (order - 1 + 1)),
           .mk root.isLeaf (root.entries.drop (order - 1 + 1))
             (if root.isLeaf = true then [] else root.children.drop (order - 1 + 1))] := by
    simp only [BTreeNode.splitChild, List.getElem?_cons_zero, hmed]
    rfl
  refine ⟨heq, ?_⟩
  rw [heq]
  refine WFN.mk (Nat.zero_le _) (by simp; omega) (List.pairwise_singleton _ _) ?_ ?_ ?_ ?_ ?_
  · intro e _
    trivial
  · intro e _
    trivial
  · intro hl2
    cases hl2
  · intro _
    rfl
  · intro i c hic
    cases i with
    | zero =>
      rw [List.getElem?_cons_zero] at hic
      cases hic
      rw [loAt_zero, hiAt_eq]
      exact splitLow_WFN_node h2 hwf hfullen hmed
    | succ j =>
      cases j with
      | zero =>
        rw [List.getElem?_cons_succ, List.getElem?_cons_zero] at hic
        cases hic
        rw [loAt_succ]
        exact splitHigh_WFN_node h2 hwf hfullen hmed
      | succ j2 =>
        rw [List.getElem?_cons_succ, List.getElem?_cons_succ] at hic
        cases hic

theorem isLeaf_mk (l : Bool) (es : List (Int × Nat)) (cs : List BTreeNode) :
    (BTreeNode.mk l es cs).isLeaf = l := rfl

theorem entries_mk (l : Bool) (es : List (Int × Nat)) (cs : List BTreeNode) :
    (BTreeNode.mk l es cs).entries = es := rfl

theorem children_mk (l : Bool) (es : List (Int × Nat)) (cs : List BTreeNode) :
    (BTreeNode.mk l es cs).children = cs := rfl

/-- `insertNonFull` into a non-full well-formed node, with the key inside
the node's bounds, yields a well-formed node for the same slot. -/
theorem insertNonFull_WFN {order : Nat} (h2 : 2 ≤ order) :
    ∀ (N : Nat) (n : BTreeNode), n.nsize ≤ N →
    ∀ {minC : Nat} {lo hi : Option Int}, WFN order minC lo hi n →
    n.entries.length < 2 * order - 1 →
    ∀ {k : Int}, obound lo k → ubound k hi →
    ∀ (rid : Nat) (cells : Cells) (nc : Nat),
    WFN order minC lo hi (BTreeNode.insertNonFull order k rid n cells nc).1 := by
  intro N
  induction N with
  | zero =>
    intro n hn
    have := BTreeNode.nsize_pos n
    omega
  | succ N ih =>
    intro n hn minC lo hi hwf hnf k hk1 hk2 rid cells nc
    cases n with
    | mk l es cs =>
      rw [BTreeNode.insertNonFull]
      have hsorted := hwf.sorted_entries
      simp only [BTreeNode.entries] at hnf
      have hpes : leafPos es k ≤ es.length := leafPos_le es k
      split
      next hl =>
        dsimp only
        split
        next hpos =>
          dsimp only
          rw [← List.insertIdx_length_self es (k, nc), ← hpos]
          exact WFN_leaf_insert hwf hl hnf hk1 hk2 nc
        next hpos =>
          split
          next e he =>
            dsimp only
            exact WFN_leaf_insert hwf hl hnf hk1 hk2 e.2
          next he =>
            dsimp only
            exact hwf
      next hl =>
        dsimp only
        split
        next hc =>
          dsimp only
          exact hwf
        next child hc =>
          have hchildwf := hwf.child hc
          have hbound_lo : obound (loAt lo es (leafPos es k)) k :=
            obound_loAt_leafPos hsorted hk1
          have hbound_hi : ubound k (hiAt hi es (leafPos es k)) :=
            ubound_hiAt_leafPos hk2
          have hplt : leafPos es k < cs.length := (List.getElem?_eq_some_iff.1 hc).1
          split
          next hfullg =>
            have hfullen : child.entries.length = 2 * order - 1 :=
              le_antisymm hchildwf.entries_max hfullg
            have hmedex : ∃ med, child.entries[order - 1]? = some med := by
              cases hm : child.entries[order - 1]? with
              | none =>
                have := List.getElem?_eq_none_iff.1 hm
                omega
              | some med => exact ⟨med, rfl⟩
            rcases hmedex with ⟨med, hmed⟩
            rcases splitChild_WFN h2 hwf hnf hc hfullen hmed with ⟨heq, hwf1⟩
            rw [heq] at hwf1
            rw [heq]
            simp only [entries_mk, isLeaf_mk, children_mk]
            have hnesp : (List.insertIdx (leafPos es k) med es)[leafPos es k]? = some med := by
              rw [getElem?_insertIdx_spec es med _ hpes, if_neg (lt_irrefl _), if_pos rfl]
            rw [hnesp]
            dsimp only
            by_cases hmk : med.1 < k
            · rw [if_pos hmk]
              split
              next hc1 => exact hwf1
              next child1 hc1 =>
                refine WFN_set_child hwf1 ?_
                have hchild1wf := hwf1.child hc1
                have hc1' := hc1
                rw [getElem?_insertIdx_spec _ _ _ (by rw [List.length_set]; omega),
                  if_neg (lt_irrefl _), if_pos rfl] at hc1'
                injection hc1' with hc1e
                have hmm : child1
                    ∈ (BTreeNode.splitChild order (BTreeNode.mk l es cs) (leafPos es k)).children := by
                  rw [heq, children_mk]
                  exact List.getElem?_mem hc1
                have hsz : child1.nsize < (BTreeNode.mk l es cs).nsize :=
                  BTreeNode.nsize_splitChild_lt hmm
                have hlen1 : child1.entries.length < 2 * order - 1 := by
                  rw [← hc1e, entries_mk, List.length_drop, hfullen]
                  omega
                have hlo2 : obound
                    (loAt lo (List.insertIdx (leafPos es k) med es) (leafPos es k + 1)) k := by
                  rw [loAt_insertIdx_succ_self hpes med]
                  exact le_of_lt hmk
                have hhi2 : ubound k
                    (hiAt hi (List.insertIdx (leafPos es k) med es) (leafPos es k + 1)) := by
                  rw [hiAt_insertIdx_succ hpes med (le_refl _)]
                  have hidx : leafPos es k + 1 - 1 = leafPos es k := by omega
                  rw [hidx]
                  exact hbound_hi
                exact ih child1 (by omega) hchild1wf hlen1 hlo2 hhi2 rid cells nc
            · rw [if_neg hmk]
              split
              next hc1 => exact hwf1
              next child1 hc1 =>
                refine WFN_set_child hwf1 ?_
                have hchild1wf := hwf1.child hc1
                have hc1' := hc1
                rw [getElem?_insertIdx_spec _ _ _ (by rw [List.length_set]; omega),
                  if_pos (by omega), List.getElem?_set, if_pos rfl, if_pos hplt] at hc1'
                injection hc1' with hc1e
                have hmm : child1
                    ∈ (BTreeNode.splitChild order (BTreeNode.mk l es cs) (leafPos es k)).children := by
                  rw [heq, children_mk]
                  exact List.getElem?_mem hc1
                have hsz : child1.nsize < (BTreeNode.mk l es cs).nsize :=
                  BTreeNode.nsize_splitChild_lt hmm
                have hlen1 : child1.entries.length < 2 * order - 1 := by
                  rw [← hc1e, entries_mk, List.length_take]
                  omega
                have hlo2 : obound
                    (loAt lo (List.insertIdx (leafPos es k) med es) (leafPos es k)) k := by
                  rw [loAt_insertIdx_le hpes med (le_refl _)]
                  exact hbound_lo
                have hhi2 : ubound k
                    (hiAt hi (List.insertIdx (leafPos es k) med es) (leafPos es k)) := by
                  rw [hiAt_insertIdx_self hpes med]
                  exact le_of_not_lt hmk
                exact ih child1 (by omega) hchild1wf hlen1 hlo2 hhi2 rid cells nc
          next hfullg =>
            dsimp only
            have hlt : child.nsize < (BTreeNode.mk l es cs).nsize :=
              BTreeNode.nsize_lt_of_mem (List.getElem?_mem hc)
            have hchildnf : child.entries.length < 2 * order - 1 := by omega
            exact WFN_set_child hwf
              (ih child (by omega) hchildwf hchildnf hbound_lo hbound_hi rid cells nc)

/-- `BTreeIndex.insert` preserves root well-formedness. -/
theorem BTreeIndex_insert_WFN {bt : BTreeIndex} (h2 : 2 ≤ bt.order)
    (hwf : WFN bt.order 0 none none bt.root) (k : Int) (rid : Nat) :
    WFN bt.order 0 none none (bt.insert k rid).root := by
  unfold BTreeIndex.insert
  dsimp only
  split
  next hfullg =>
    have hfe : bt.root.entries.length = 2 * bt.order - 1 :=
      le_antisymm hwf.entries_max hfullg
    have hmedex : ∃ med, bt.root.entries[bt.order - 1]? = some med := by
      cases hm : bt.root.entries[bt.order - 1]? with
      | none =>
        have := List.getElem?_eq_none_iff.1 hm
        omega
      | some med => exact ⟨med, rfl⟩
    rcases hmedex with ⟨med, hmed⟩
    rcases splitRoot_WFN h2 hwf hfe hmed with ⟨heq, hwf1⟩
    refine insertNonFull_WFN h2 _ _ (le_refl _) hwf1 ?_ trivial trivial rid bt.cells bt.nextCell
    rw [heq, entries_mk]
    simp only [List.length_cons, List.length_nil]
    omega
  next hfullg =>
    exact insertNonFull_WFN h2 _ _ (le_refl _) hwf (by omega) trivial trivial
      rid bt.cells bt.nextCell

theorem BTreeIndex_delete_root (bt : BTreeIndex) (k : Int) (rid : Nat) :
    (bt.delete k rid).root = bt.root := by
  unfold BTreeIndex.delete
  split <;> rfl

theorem BTreeIndex_delete_order (bt : BTreeIndex) (k : Int) (rid : Nat) :
    (bt.delete k rid).order = bt.order := by
  unfold BTreeIndex.delete
  split <;> rfl

/-- B-tree index states reachable from a fresh index by any sequence of
`insert` and `delete` operations. -/
inductive BTReach : BTreeIndex → Prop
  | init (columnName : String) (order : Nat) : BTReach (BTreeIndex.new columnName order)
  | insert {bt : BTreeIndex} (k : Int) (rid : Nat) : BTReach bt → BTReach (bt.insert k rid)
  | delete {bt : BTreeIndex} (k : Int) (rid : Nat) : BTReach bt → BTReach (bt.delete k rid)

/-- Every reachable index of order at least 2 has a well-formed tree. -/
theorem BTReach_WFN {bt : BTreeIndex} (hr : BTReach bt) (h2 : 2 ≤ bt.order) :
    WFN bt.order 0 none none bt.root := by
  induction hr with
  | init columnName order =>
    refine WFN.mk (Nat.zero_le _) (Nat.zero_le _) List.Pairwise.nil ?_ ?_ (fun _ => rfl) ?_ ?_
    · intro e he
      cases he
    · intro e he
      cases he
    · intro hfl
      cases hfl
    · intro i c hic
      cases hic
  | insert k rid hr ih =>
    rename_i bt2
    have h2b : 2 ≤ bt2.order := h2
    exact BTreeIndex_insert_WFN h2b (ih h2b) k rid
  | delete k rid hr ih =>
    rw [BTreeIndex_delete_order] at h2 ⊢
    rw [BTreeIndex_delete_root]
    exact ih h2

theorem loAt_cons_succ (lo : Option Int) (k0 : Int) (c0 : Nat)
    (es2 : List (Int × Nat)) (i : Nat) :
    loAt lo ((k0, c0) :: es2) (i + 1) = loAt (some k0) es2 i := by
  cases i with
  | zero => rw [loAt_succ, loAt_zero, List.getElem?_cons_zero]
  | succ j => rw [loAt_succ, loAt_succ, List.getElem?_cons_succ]

theorem hiAt_cons_succ (hi : Option Int) (k0 : Int) (c0 : Nat)
    (es2 : List (Int × Nat)) (i : Nat) :
    hiAt hi ((k0, c0) :: es2) (i + 1) = hiAt hi es2 i := by
  rw [hiAt_eq, hiAt_eq, List.getElem?_cons_succ]

/-- The in-order key walk of a node's entry/child arrays is sorted and
stays inside the node's bounds, given sorted in-bounds entries and
sorted in-bounds children. -/
theorem keysGo_sorted_bounded (hi : Option Int) (l : Bool) :
    ∀ (es : List (Int × Nat)) (cs : List BTreeNode) (lo : Option Int),
    List.Pairwise (fun a b => a.1 ≤ b.1) es →
    (∀ e ∈ es, obound lo e.1) →
    (∀ e ∈ es, ubound e.1 hi) →
    (l = true → cs = []) →
    (l = false → cs.length = es.length + 1) →
    (∀ i c, cs[i]? = some c →
      List.Pairwise (fun a b => a ≤ b) (BTreeNode.keysInOrder c) ∧
      ∀ x ∈ BTreeNode.keysInOrder c, obound (loAt lo es i) x ∧ ubound x (hiAt hi es i)) →
    List.Pairwise (fun a b => a ≤ b) (BTreeNode.keysGo l es cs) ∧
    ∀ x ∈ BTreeNode.keysGo l es cs, obound lo x ∧ ubound x hi := by
  intro es
  induction es with
  | nil =>
    intro cs lo hsorted hlo hhi hleaf hints hch
    rw [BTreeNode.keysGo.eq_def]
    dsimp only
    by_cases hl : l = true
    · rw [if_pos hl]
      refine ⟨List.Pairwise.nil, ?_⟩
      intro x hx
      cases hx
    · rw [if_neg hl]
      cases cs with
      | nil =>
        refine ⟨List.Pairwise.nil, ?_⟩
        intro x hx
        cases hx
      | cons c rest =>
        have hc := hch 0 c (List.getElem?_cons_zero)
        rw [loAt_zero] at hc
        have hhieq : hiAt hi ([] : List (Int × Nat)) 0 = hi := rfl
        rw [hhieq] at hc
        exact hc
  | cons e0 es2 ih =>
    intro cs lo hsorted hlo hhi hleaf hints hch
    cases e0 with
    | mk k0 c0 =>
      rw [BTreeNode.keysGo.eq_def]
      dsimp only
      have hs := List.pairwise_cons.1 hsorted
      have hk0lo : obound lo k0 := hlo (k0, c0) (List.mem_cons_self _ _)
      have hk0hi : ubound k0 hi := hhi (k0, c0) (List.mem_cons_self _ _)
      have htail := ih cs.tail (some k0) hs.2
        (fun e he => hs.1 e he)
        (fun e he => hhi e (List.mem_cons_of_mem _ he))
        (fun hfl => by rw [hleaf hfl]; rfl)
        (fun hfl => by rw [List.length_tail, hints hfl, List.length_cons]; omega)
        (fun i c hic => by
          rw [List.getElem?_tail] at hic
          have := hch (i + 1) c hic
          rw [loAt_cons_succ, hiAt_cons_succ] at this
          exact this)
      have hchildPart :
          List.Pairwise (fun a b => a ≤ b)
            (if l = true then []
             else match cs with
               | c :: _ => BTreeNode.keysInOrder c
               | [] => []) ∧
          ∀ x ∈ (if l = true then []
             else match cs with
               | c :: _ => BTreeNode.keysInOrder c
               | [] => []), obound lo x ∧ x ≤ k0 := by
        by_cases hl : l = true
        · rw [if_pos hl]
          refine ⟨List.Pairwise.nil, ?_⟩
          intro x hx
          cases hx
        · rw [if_neg hl]
          cases cs with
          | nil =>
            refine ⟨List.Pairwise.nil, ?_⟩
            intro x hx
            cases hx
          | cons c rest =>
            have hc := hch 0 c (List.getElem?_cons_zero)
            rw [loAt_zero] at hc
            have hhieq : hiAt hi ((k0, c0) :: es2) 0 = some k0 := by
              rw [hiAt_eq, List.getElem?_cons_zero]
            rw [hhieq] at hc
            exact ⟨hc.1, fun x hx => ⟨(hc.2 x hx).1, (hc.2 x hx).2⟩⟩
      refine ⟨?_, ?_⟩
      · rw [List.pairwise_append]
        refine ⟨hchildPart.1, ?_, ?_⟩
        · rw [List.pairwise_cons]
          refine ⟨?_, htail.1⟩
          intro x hx
          exact (htail.2 x hx).1
        · intro a ha b hb
          have hak0 : a ≤ k0 := (hchildPart.2 a ha).2
          rcases List.mem_cons.1 hb with hb1 | hb1
          · rw [hb1]
            exact hak0
          · exact le_trans hak0 (htail.2 b hb1).1
      · intro x hx
        rcases List.mem_append.1 hx with hx1 | hx1
        · exact ⟨(hchildPart.2 x hx1).1,
            ubound_trans (hchildPart.2 x hx1).2 hk0hi⟩
        · rcases List.mem_cons.1 hx1 with hx2 | hx2
          · rw [hx2]
            exact ⟨hk0lo, hk0hi⟩
          · exact ⟨obound_trans hk0lo (htail.2 x hx2).1, (htail.2 x hx2).2⟩

/-- The in-order key walk of a well-formed node is sorted and in
bounds. -/
theorem WFN_keysInOrder_sorted {order minC : Nat} {lo hi : Option Int} {n : BTreeNode}
    (h : WFN order minC lo hi n) :
    List.Pairwise (fun a b => a ≤ b) (BTreeNode.keysInOrder n) ∧
    ∀ x ∈ BTreeNode.keysInOrder n, obound lo x ∧ ubound x hi := by
  induction h with
  | mk hmin hmax hsorted hlo hhi hleaf hints hch ih =>
    rw [BTreeNode.keysInOrder]
    exact keysGo_sorted_bounded _ _ _ _ _ hsorted hlo hhi hleaf hints ih

/-- `Subnode n d`: the node `d` occurs in the subtree rooted at `n`
(including `n` itself). -/
inductive Subnode : BTreeNode → BTreeNode → Prop
  | refl (n : BTreeNode) : Subnode n n
  | child {n c d : BTreeNode} : c ∈ n.children → Subnode c d → Subnode n d

/-- Every node of a subtree whose root is held to the non-root minimum
occupancy has between `order - 1` and `2*order - 1` entries. -/
theorem WFN_subnode_count {order : Nat} {c d : BTreeNode} (hsub : Subnode c d) :
    ∀ {lo hi : Option Int}, WFN order (order - 1) lo hi c →
    order - 1 ≤ d.entries.length ∧ d.entries.length ≤ 2 * order - 1 := by
  induction hsub with
  | refl n =>
    intro lo hi h
    exact ⟨h.entries_min, h.entries_max⟩
  | child hmem hsub2 ih =>
    intro lo hi h
    rename_i n c2 d2
    cases n with
    | mk l es cs =>
      have hmem2 : c2 ∈ cs := hmem
      rcases List.mem_iff_getElem?.1 hmem2 with ⟨i, hi2⟩
      exact ih (h.child hi2)

/-- C7: for every range-index tree reachable by any sequence of `insert`
and `delete` operations (order at least 2), the in-order traversal
yields its keys in non-decreasing order, and every node other than the
root holds between `order - 1` and `2*order - 1` keys. -/
theorem c7_btree_invariant (bt : BTreeIndex) (h2 : 2 ≤ bt.order) (hr : BTReach bt) :
    List.Sorted (fun a b => a ≤ b) (BTreeNode.keysInOrder bt.root) ∧
    ∀ c ∈ bt.root.children, ∀ d, Subnode c d →
      bt.order - 1 ≤ d.entries.length ∧ d.entries.length ≤ 2 * bt.order - 1 := by
  have hwf := BTReach_WFN hr h2
  refine ⟨(WFN_keysInOrder_sorted hwf).1, ?_⟩
  intro c hc d hd
  cases hroot : bt.root with
  | mk l es cs =>
    rw [hroot] at hwf hc
    have hc2 : c ∈ cs := hc
    rcases List.mem_iff_getElem?.1 hc2 with ⟨i, hi2⟩
    exact WFN_subnode_count hd (hwf.child hi2)

unseal BTreeNode.insertNonFull BTreeNode.searchGo BTreeNode.searchCell in
theorem c7_btree_invariant_witness :
    2 ≤ ((((BTreeIndex.new "amount" 5).insert 7 0).insert 3 1).delete 7 0).order ∧
    (List.Sorted (fun a b => a ≤ b)
        (BTreeNode.keysInOrder
          ((((BTreeIndex.new "amount" 5).insert 7 0).insert 3 1).delete 7 0).root) ∧
      ∀ c ∈ ((((BTreeIndex.new "amount" 5).insert 7 0).insert 3 1).delete 7 0).root.children,
        ∀ d, Subnode c d →
          ((((BTreeIndex.new "amount" 5).insert 7 0).insert 3 1).delete 7 0).order - 1
              ≤ d.entries.length ∧
            d.entries.length
              ≤ 2 * ((((BTreeIndex.new "amount" 5).insert 7 0).insert 3 1).delete 7 0).order - 1) :=
  ⟨by decide, c7_btree_invariant _ (by decide)
    (BTReach.delete 7 0 (BTReach.insert 3 1 (BTReach.insert 7 0 (BTReach.init "amount" 5))))⟩
